import Mathlib

/-!
Formal model of the Lecture-Summarizer batch pipeline.

The definitions below are a shallow embedding of the repository's code:
`audio_chunker.py` (AudioChunker.split_audio span arithmetic),
`batch_processor.py` (BatchProcessor: the staged transcription/summarization
pipeline with skip-if-exists recovery, cooperative stop, merge and compile
steps), and `app.py` (run_pipeline: the thread body started by the UI,
together with the `is_running` flag handling around it).

Python strings are modelled as Lean `String`s, reasoned about through their
character lists; the filesystem state the pipeline touches is modelled
explicitly as part of the processor state.  External collaborators (the
transcription subprocess, the ollama subprocess, the audio loader) are
parameters of the model, reflecting the file-in/file-out and text-in/text-out
contracts the orchestrator assumes.
-/

/-- Whitespace test of Python `str.split()` / `str.strip()` with no arguments
(the ASCII whitespace characters). -/
def pyIsSpace (c : Char) : Bool :=
  c = ' ' || c = '\t' || c = '\n' || c = '\r' || c = '\x0b' || c = '\x0c'

/-- Helper for `splitWords`: scans the characters, accumulating the current
in-progress word in reverse. -/
def splitWordsAux : List Char → List Char → List (List Char)
  | [], acc => if acc.isEmpty then [] else [acc.reverse]
  | c :: cs, acc =>
    if pyIsSpace c then
      if acc.isEmpty then splitWordsAux cs [] else acc.reverse :: splitWordsAux cs []
    else splitWordsAux cs (c :: acc)

/-- Python `text.split()` with no arguments, at the character-list level:
split on runs of whitespace, never producing empty words. -/
def splitWords (l : List Char) : List (List Char) := splitWordsAux l []

/-- Python `sep.join(ws)` at the character-list level. -/
def joinSep (sep : List Char) : List (List Char) → List Char
  | [] => []
  | [w] => w
  | w :: x :: ws => w ++ sep ++ joinSep sep (x :: ws)

/-- Python slice `words[k*S : k*S + S]`: the `k`-th group of `S` consecutive
words. -/
def wordChunk (S : Nat) (ws : List (List Char)) (k : Nat) : List (List Char) :=
  (ws.drop (k * S)).take S

/-- Number of iterations of Python `range(0, len, S)` for `S ≥ 1`, i.e.
`ceil(len / S)` written with natural-number division. -/
def numSegs (len S : Nat) : Nat := (len + S - 1) / S

/-- The word groups visited by `for i in range(0, len(ws), S)` with slice
`ws[i:i+S]`, in order. -/
def wordChunks (S : Nat) (ws : List (List Char)) : List (List (List Char)) :=
  (List.range (numSegs ws.length S)).map (wordChunk S ws)

/-- `BatchProcessor.split_text_into_chunks` (batch_processor.py lines 175-178):
`words = text.split()`, then for `i in range(0, len(words), words_per_chunk)`
yield `" ".join(words[i:i + words_per_chunk])`.  The generator is materialized
as the list of its yields, in order. -/
def split_text_into_chunks (text : String) (words_per_chunk : Nat) : List String :=
  (wordChunks words_per_chunk (splitWords text.data)).map
    (fun g => String.mk (joinSep [' '] g))

/-- Joining a list of strings with single spaces (`" ".join`), used to state
the word-level round trip. -/
def joinWithSpaces (l : List String) : String :=
  String.mk (joinSep [' '] (l.map String.data))

/-- A text with its whitespace runs collapsed to single spaces, i.e.
`" ".join(text.split())` — the word-level normal form. -/
def collapseWhitespace (t : String) : String :=
  String.mk (joinSep [' '] (splitWords t.data))

/-- Span arithmetic of `AudioChunker.split_audio` (audio_chunker.py lines
27-38) for a successfully loaded audio of `D` milliseconds and chunk length
`C` milliseconds: `num_chunks = math.ceil(D / C)`, and chunk `i` is the slice
`audio[i*C : min((i+1)*C, D)]`.  Each span is the pair (start, end) in ms. -/
def split_audio_spans (D C : Nat) : List (Nat × Nat) :=
  (List.range ((D + C - 1) / C)).map (fun i => (i * C, min ((i + 1) * C) D))

/-- Fuel-indexed decimal digit expansion, most significant digit first.
`decDigitsAux (n+1) n` computes the digits of `n`. -/
def decDigitsAux : Nat → Nat → List Char
  | 0, _ => []
  | f + 1, n =>
    if n < 10 then [Nat.digitChar n]
    else decDigitsAux f (n / 10) ++ [Nat.digitChar (n % 10)]

/-- Decimal representation of `n`, most significant digit first: Python
`str(i)` for a nonnegative int. -/
def decRepr (n : Nat) : List Char := decDigitsAux (n + 1) n

/-- Python format spec `{i:03d}`: decimal, left-padded with `'0'` to a minimum
width of 3 characters. -/
def pad3 (n : Nat) : List Char :=
  List.replicate (3 - (decRepr n).length) '0' ++ decRepr n

/-- `os.path.join(TRANSCRIPT_DIR, f"batch_{i:03d}.txt")`: the path under which
transcript unit `i` is stored. -/
def tpath (i : Nat) : String :=
  String.mk ("transcripts/batch_".data ++ pad3 i ++ ".txt".data)

/-- `os.path.join(SUMMARY_DIR, f"summary_{i:03d}.txt")`: the path under which
summary unit `i` is stored. -/
def spath (i : Nat) : String :=
  String.mk ("summaries/summary_".data ++ pad3 i ++ ".txt".data)

/-- Lexicographic comparison of character lists by Unicode code point:
Python's `<=` on strings, which is what `sorted(...)` uses. -/
def lexLeB : List Char → List Char → Bool
  | [], _ => true
  | _ :: _, [] => false
  | a :: as, b :: bs =>
    if a.toNat < b.toNat then true
    else if b.toNat < a.toNat then false
    else lexLeB as bs

/-- Python string `<=`, the order `sorted(...)` sorts by. -/
def strLe (a b : String) : Prop := lexLeB a.data b.data = true

instance : DecidableRel strLe := fun a b => by
  unfold strLe
  infer_instance

/-- Python `str.strip()` with no arguments: drop leading and trailing
whitespace. -/
def pyStrip (s : String) : String :=
  String.mk (((s.data.dropWhile pyIsSpace).reverse.dropWhile pyIsSpace).reverse)

/-- Listing of one unit-file directory (`transcripts/` or `summaries/`):
an association of unit index to file content.  The stages create only their
index-named unit files in these directories, so the index is the key. -/
abbrev DirListing := List (Nat × String)

/-- File content at unit index `i`, `none` when the file does not exist. -/
def lookupD (d : DirListing) (i : Nat) : Option String :=
  (List.find? (fun e => e.1 == i) d).map (fun e => e.2)

/-- `open(path, "w").write(c)`: create or overwrite the unit file `i`. -/
def writeD (d : DirListing) (i : Nat) (c : String) : DirListing :=
  List.filter (fun e => e.1 != i) d ++ [(i, c)]

/-- The skip-if-exists completion check of lines 112 and 209:
`os.path.exists(f) and os.path.getsize(f) > 0`, i.e. the unit file exists with
nonempty content. -/
def fileDone (d : DirListing) (i : Nat) : Bool :=
  match lookupD d i with
  | some c => c != ""
  | none => false

/-- State of a `BatchProcessor` instance together with the files its methods
read and write: the two unit directories, `lecture_clean.txt`,
`notes/final_notes.txt`, the observable status fields, and the cooperative
stop event (`_stop_event`). -/
structure ProcState where
  transcripts : DirListing
  summaries : DirListing
  lectureClean : Option String
  finalNotes : Option String
  transcription_progress : ℚ
  summarization_progress : ℚ
  status_message : String
  is_running : Bool
  stopFlag : Bool

/-- `BatchProcessor.__init__` (lines 18-25) in a fresh working directory:
empty artifact directories, progress 0.0, status "Idle", not running, stop
event unset. -/
def initState : ProcState :=
  { transcripts := [], summaries := [], lectureClean := none, finalNotes := none,
    transcription_progress := 0, summarization_progress := 0,
    status_message := "Idle", is_running := false, stopFlag := false }

/-- `BatchProcessor.stop` (lines 248-249): set the cooperative stop event.
No method of the class ever clears it. -/
def stopProcessor (s : ProcState) : ProcState := { s with stopFlag := true }

/-- Outcome of the transcription collaborator for one chunk: the RealtimeSTT
module may fail to import, the `transcribe_worker.py` subprocess may complete
with a return code and stdout, or `subprocess.run` itself may raise. -/
inductive SttOutcome where
  | importError
  | exited (returncode : Nat) (stdout : String)
  | exc

/-- `BatchProcessor._transcribe_file` (lines 126-163): an import error yields
a bracketed error string; a zero return code yields `stdout.strip()`; a
nonzero return code or an exception yields the empty string. -/
def transcribe_file : SttOutcome → String
  | .importError => "[Error: RealtimeSTT not found]"
  | .exited 0 out => pyStrip out
  | .exited _ _ => ""
  | .exc => ""

/-- Outcome of the `ollama run phi` subprocess for one text chunk: either the
binary ran and produced stdout, or it was absent (FileNotFoundError). -/
inductive OllamaOutcome where
  | completed (stdout : String)
  | notFound

/-- `BatchProcessor._summarize_text_chunk` (lines 223-236): `stdout.strip()`
when the subprocess ran, the fixed sentinel string when the backend binary is
absent. -/
def summarize_text_chunk : OllamaOutcome → String
  | .completed out => pyStrip out
  | .notFound => "[Error: Ollama not found]"

/-- Status message written at the head of transcription loop iteration `i`. -/
def transStatusMsg (i total : Nat) : String :=
  "Transcribing batch " ++ toString (i + 1) ++ "/" ++ toString total ++ "..."

/-- Body of one transcription loop iteration (lines 109-117): skip when the
unit file exists with nonzero size, otherwise invoke the collaborator and
write its result to the unit file.  Also reports whether the collaborator was
invoked. -/
def transStep (transcribe : Nat → String) (i : Nat) (s : ProcState) : ProcState × Option Nat :=
  if fileDone s.transcripts i then (s, none)
  else ({ s with transcripts := writeD s.transcripts i (transcribe i) }, some i)

/-- One non-stopped iteration of the transcription loop (lines 107-119): set
the status message, process the unit (skip or transcribe-and-write), update
the progress.  The second component records whether the collaborator was
invoked. -/
def transIter (transcribe : Nat → String) (total i : Nat) (s : ProcState) :
    ProcState × Option Nat :=
  let p := transStep transcribe i { s with status_message := transStatusMsg i total }
  ({ p.1 with transcription_progress := 2/10 + 8/10 * ((i : ℚ) + 1) / (total : ℚ) }, p.2)

/-- The transcription loop over the remaining chunk indices: read the stop
event (`stop i` is its value at the start of iteration `i`; if set, break),
then run the iteration body. -/
def transGo (transcribe : Nat → String) (stop : Nat → Bool) (total : Nat) :
    List Nat → ProcState → List Nat → ProcState × List Nat
  | [], s, inv => (s, inv)
  | i :: rest, s, inv =>
    if stop i then (s, inv)
    else
      transGo transcribe stop total rest (transIter transcribe total i s).1
        (inv ++ (transIter transcribe total i s).2.toList)

/-- `BatchProcessor.merge_transcripts` (lines 165-173): list the transcript
unit files, sort the joined paths lexicographically, concatenate each file's
content followed by one space, strip the result. -/
def merge_text (d : DirListing) : String :=
  let paths := List.insertionSort strLe (d.map (fun e => tpath e.1))
  pyStrip (String.join (paths.map (fun p =>
    (((List.find? (fun e => tpath e.1 == p) d).map (fun e => e.2)).getD "") ++ " ")))

/-- `merge_transcripts` as a state transformer: writes `lecture_clean.txt`. -/
def merge_transcripts (s : ProcState) : ProcState :=
  { s with lectureClean := some (merge_text s.transcripts) }

/-- `BatchProcessor.process_audio_batches` (lines 60-124).  Audio
normalization is best-effort and affects no modelled state; the chunker
collaborator is abstracted by `numChunks = len(chunks)` (0 when the audio
cannot be loaded); `transcribe i` is the text `_transcribe_file` returns for
chunk `i`; `stop i` is the stop-event value read before unit `i` (disjoined
with the instance's already-set flag).  Returns the method's boolean result,
the final state, and the indices for which the collaborator was invoked. -/
def process_audio_batches (transcribe : Nat → String) (numChunks : Nat) (stop : Nat → Bool)
    (s : ProcState) : Bool × ProcState × List Nat :=
  let s1 := { s with status_message := "Normalizing audio...", transcription_progress := 1/10 }
  if numChunks = 0 then
    (false, { s1 with status_message := "Audio chunking failed." }, [])
  else
    let s2 := { s1 with transcription_progress := 2/10 }
    let p := transGo transcribe (fun i => s.stopFlag || stop i) numChunks (List.range numChunks) s2 []
    let s3 := merge_transcripts { p.1 with status_message := "Merging transcripts..." }
    (true, { s3 with transcription_progress := 1 }, p.2)

/-- Status message written at the head of summarization loop iteration `i`. -/
def sumStatusMsg (i total : Nat) : String :=
  "Summarizing part " ++ toString (i + 1) ++ "/" ++ toString total ++ "..."

/-- Body of one summarization loop iteration (lines 207-214), mirroring
`transStep` for summary unit files. -/
def sumStep (summarize : String → String) (chunks : List String) (i : Nat) (s : ProcState) :
    ProcState × Option Nat :=
  if fileDone s.summaries i then (s, none)
  else ({ s with summaries := writeD s.summaries i (summarize (chunks.getD i "")) }, some i)

/-- One non-stopped iteration of the summarization loop (lines 205-216). -/
def sumIter (summarize : String → String) (chunks : List String) (i : Nat) (s : ProcState) :
    ProcState × Option Nat :=
  let p := sumStep summarize chunks i { s with status_message := sumStatusMsg i chunks.length }
  ({ p.1 with summarization_progress := ((i : ℚ) + 1) / (chunks.length : ℚ) }, p.2)

/-- The summarization loop of `process_summary_batches` (lines 201-216). -/
def sumGo (summarize : String → String) (chunks : List String) (stop : Nat → Bool) :
    List Nat → ProcState → List Nat → ProcState × List Nat
  | [], s, inv => (s, inv)
  | i :: rest, s, inv =>
    if stop i then (s, inv)
    else
      sumGo summarize chunks stop rest (sumIter summarize chunks i s).1
        (inv ++ (sumIter summarize chunks i s).2.toList)

/-- `BatchProcessor.compile_final_notes` (lines 238-246): list the summary
unit files, sort the joined paths lexicographically, prepend the fixed
header, concatenate each file's content followed by a blank line. -/
def compile_text (d : DirListing) : String :=
  let paths := List.insertionSort strLe (d.map (fun e => spath e.1))
  "# Final Lecture Notes\n\n" ++ String.join (paths.map (fun p =>
    (((List.find? (fun e => spath e.1 == p) d).map (fun e => e.2)).getD "") ++ "\n\n"))

/-- `compile_final_notes` as a state transformer: writes the final notes. -/
def compile_final_notes (s : ProcState) : ProcState :=
  { s with finalNotes := some (compile_text s.summaries) }

/-- `BatchProcessor.process_summary_batches` (lines 180-221): requires
`lecture_clean.txt` to exist, chunks its text into 500-word segments, fails
when there are zero segments, otherwise runs the summarization loop and
compiles the final notes.  `summarize t` is the text `_summarize_text_chunk`
returns for input `t`. -/
def process_summary_batches (summarize : String → String) (stop : Nat → Bool)
    (s : ProcState) : Bool × ProcState × List Nat :=
  let s1 := { s with status_message := "Preparing text for summary...", summarization_progress := 0 }
  match s.lectureClean with
  | none => (false, { s1 with status_message := "No transcript found." }, [])
  | some text =>
    let chunks := split_text_into_chunks text 500
    if chunks.length = 0 then
      (false, { s1 with status_message := "Text is empty." }, [])
    else
      let p := sumGo summarize chunks (fun i => s.stopFlag || stop i)
        (List.range chunks.length) s1 []
      let s2 := compile_final_notes { p.1 with status_message := "Compiling final notes..." }
      (true, { s2 with summarization_progress := 1 }, p.2)

/-- Result of one stage method as seen by the pipeline thread: a normal
return carrying the method's boolean result, or an uncaught exception with
message `e`; in both cases together with the instance state the method left
behind. -/
inductive StageOutcome where
  | ret (b : Bool) (s : ProcState)
  | raised (e : String) (s : ProcState)

/-- app.py lines 160-179: the Start-button handler sets
`proc.is_running = True` and starts a thread running `run_pipeline`, which
calls `process_audio_batches` and then, if it returned True,
`process_summary_batches`; `except` captures any exception into
`status_message` as `f"Error: {e}"`, and `finally` clears `is_running`.  The
two stage calls are abstracted as functions that may return or raise. -/
def run_pipeline (stt : ProcState → StageOutcome) (summ : ProcState → StageOutcome)
    (s0 : ProcState) : ProcState :=
  let s1 := { s0 with is_running := true }
  let s2 :=
    match stt s1 with
    | .ret true s =>
      match summ s with
      | .ret _ s' => s'
      | .raised e s' => { s' with status_message := "Error: " ++ e }
    | .ret false s => s
    | .raised e s => { s with status_message := "Error: " ++ e }
  { s2 with is_running := false }

/-- The transcription stage as invoked by `run_pipeline`: the modelled method
always returns normally. -/
def stageSTT (transcribe : Nat → String) (numChunks : Nat) (stop : Nat → Bool)
    (s : ProcState) : StageOutcome :=
  let r := process_audio_batches transcribe numChunks stop s
  .ret r.1 r.2.1

/-- The summarization stage as invoked by `run_pipeline`. -/
def stageSUM (summarize : String → String) (stop : Nat → Bool) (s : ProcState) : StageOutcome :=
  let r := process_summary_batches summarize stop s
  .ret r.1 r.2.1

/-- `run_pipeline` with the two concrete stage models plugged in.  `stopT i`
and `stopS i` are the stop-event values read at the unit boundaries of the
respective stage loops. -/
def run_pipeline_concrete (transcribe : Nat → String) (numChunks : Nat)
    (summarize : String → String) (stopT stopS : Nat → Bool) (s0 : ProcState) : ProcState :=
  run_pipeline (stageSTT transcribe numChunks stopT) (stageSUM summarize stopS) s0

/-- Looking up in a cons cell of a directory listing. -/
theorem lookupD_cons (e : Nat × String) (d : DirListing) (j : Nat) :
    lookupD (e :: d) j = if e.1 = j then some e.2 else lookupD d j := by
  by_cases h : e.1 = j
  · simp [lookupD, List.find?_cons, h]
  · have hb : (e.1 == j) = false := by simpa using h
    simp [lookupD, List.find?_cons, hb, h]

/-- Writing unit `i` updates exactly the entry for index `i`. -/
theorem lookupD_writeD (d : DirListing) (i j : Nat) (c : String) :
    lookupD (writeD d i c) j = if j = i then some c else lookupD d j := by
  induction d with
  | nil =>
    simp only [writeD, List.filter_nil, List.nil_append]
    rw [lookupD_cons]
    by_cases h : j = i
    · simp [h]
    · simp [h, Ne.symm h, lookupD, List.find?]
  | cons e d ih =>
    by_cases he : e.1 != i
    · have hw : writeD (e :: d) i c = e :: writeD d i c := by
        simp [writeD, List.filter_cons, he]
      rw [hw, lookupD_cons, lookupD_cons, ih]
      by_cases hej : e.1 = j
      · have : ¬ j = i := by simp at he; omega
        simp [hej, this]
      · simp [hej]
    · have hei : e.1 = i := by simpa using he
      have hw : writeD (e :: d) i c = writeD d i c := by
        simp [writeD, List.filter_cons, he]
      rw [hw, ih, lookupD_cons]
      by_cases h : j = i
      · simp [h]
      · have : ¬ e.1 = j := by omega
        simp [h, this]

/-- `fileDone` only looks at the entry for its index. -/
theorem fileDone_congr {d d' : DirListing} {j : Nat} (h : lookupD d j = lookupD d' j) :
    fileDone d j = fileDone d' j := by
  unfold fileDone
  rw [h]

/-- A skipped iteration leaves the transcripts directory unchanged and does
not invoke the collaborator. -/
theorem transIter_done (transcribe : Nat → String) (total : Nat) {i : Nat} {s : ProcState}
    (h : fileDone s.transcripts i = true) :
    (transIter transcribe total i s).1.transcripts = s.transcripts ∧
    (transIter transcribe total i s).2 = none := by
  constructor <;> simp [transIter, transStep, h]

/-- A non-skipped iteration writes the collaborator's output for the unit and
records the invocation. -/
theorem transIter_not_done (transcribe : Nat → String) (total : Nat) {i : Nat} {s : ProcState}
    (h : fileDone s.transcripts i = false) :
    (transIter transcribe total i s).1.transcripts = writeD s.transcripts i (transcribe i) ∧
    (transIter transcribe total i s).2 = some i := by
  constructor <;> simp [transIter, transStep, h]

/-- One transcription iteration touches only the transcripts directory, the
status message and the transcription progress. -/
theorem transIter_frame (transcribe : Nat → String) (total i : Nat) (s : ProcState) :
    (transIter transcribe total i s).1.summaries = s.summaries ∧
    (transIter transcribe total i s).1.lectureClean = s.lectureClean ∧
    (transIter transcribe total i s).1.finalNotes = s.finalNotes ∧
    (transIter transcribe total i s).1.is_running = s.is_running ∧
    (transIter transcribe total i s).1.stopFlag = s.stopFlag := by
  rcases h : fileDone s.transcripts i with _ | _ <;>
    refine ⟨?_, ?_, ?_, ?_, ?_⟩ <;> simp [transIter, transStep, h]

/-- The transcription loop touches only the transcripts directory, the status
message and the transcription progress. -/
theorem transGo_frame (transcribe : Nat → String) (stop : Nat → Bool) (total : Nat) :
    ∀ (l : List Nat) (s : ProcState) (inv : List Nat),
      (transGo transcribe stop total l s inv).1.summaries = s.summaries ∧
      (transGo transcribe stop total l s inv).1.lectureClean = s.lectureClean ∧
      (transGo transcribe stop total l s inv).1.finalNotes = s.finalNotes ∧
      (transGo transcribe stop total l s inv).1.is_running = s.is_running ∧
      (transGo transcribe stop total l s inv).1.stopFlag = s.stopFlag := by
  intro l
  induction l with
  | nil => intro s inv; exact ⟨rfl, rfl, rfl, rfl, rfl⟩
  | cons i rest ih =>
    intro s inv
    rw [transGo]
    split
    · exact ⟨rfl, rfl, rfl, rfl, rfl⟩
    · have hi := ih (transIter transcribe total i s).1
        (inv ++ (transIter transcribe total i s).2.toList)
      have hf := transIter_frame transcribe total i s
      exact ⟨hi.1.trans hf.1, hi.2.1.trans hf.2.1, hi.2.2.1.trans hf.2.2.1,
        hi.2.2.2.1.trans hf.2.2.2.1, hi.2.2.2.2.trans hf.2.2.2.2⟩

/-- Indices outside the remaining work list are never touched by the loop. -/
theorem transGo_untouched (transcribe : Nat → String) (stop : Nat → Bool) (total : Nat) :
    ∀ (l : List Nat) (s : ProcState) (inv : List Nat) (j : Nat), j ∉ l →
      lookupD (transGo transcribe stop total l s inv).1.transcripts j =
        lookupD s.transcripts j ∧
      (j ∈ (transGo transcribe stop total l s inv).2 ↔ j ∈ inv) := by
  intro l
  induction l with
  | nil => intro s inv j _; exact ⟨rfl, Iff.rfl⟩
  | cons i rest ih =>
    intro s inv j hj
    have hji : j ≠ i := fun h => hj (h ▸ List.mem_cons_self i rest)
    have hjr : j ∉ rest := fun h => hj (List.mem_cons_of_mem i h)
    rw [transGo]
    split
    · exact ⟨rfl, Iff.rfl⟩
    · have ihi := ih (transIter transcribe total i s).1
        (inv ++ (transIter transcribe total i s).2.toList) j hjr
      rcases h : fileDone s.transcripts i with _ | _
      · have ht := transIter_not_done transcribe total h
        refine ⟨?_, ?_⟩
        · rw [ihi.1, ht.1, lookupD_writeD]
          simp [hji]
        · rw [ihi.2, ht.2]
          simp [hji]
      · have ht := transIter_done transcribe total h
        refine ⟨?_, ?_⟩
        · rw [ihi.1, ht.1]
        · rw [ihi.2, ht.2]
          simp

/-- A unit file that exists with nonzero size is never overwritten by the
transcription loop, and the collaborator is not invoked for it. -/
theorem transGo_preserves_done (transcribe : Nat → String) (stop : Nat → Bool) (total : Nat) :
    ∀ (l : List Nat) (s : ProcState) (inv : List Nat) (j : Nat),
      fileDone s.transcripts j = true →
      lookupD (transGo transcribe stop total l s inv).1.transcripts j =
        lookupD s.transcripts j ∧
      (j ∈ (transGo transcribe stop total l s inv).2 ↔ j ∈ inv) := by
  intro l
  induction l with
  | nil => intro s inv j _; exact ⟨rfl, Iff.rfl⟩
  | cons i rest ih =>
    intro s inv j hdone
    rw [transGo]
    split
    · exact ⟨rfl, Iff.rfl⟩
    · rcases h : fileDone s.transcripts i with _ | _
      · have hji : j ≠ i := fun he => by rw [he] at hdone; rw [hdone] at h; cases h
        have ht := transIter_not_done transcribe total h
        have hlk : lookupD (transIter transcribe total i s).1.transcripts j =
            lookupD s.transcripts j := by
          rw [ht.1, lookupD_writeD]; simp [hji]
        have hdone' : fileDone (transIter transcribe total i s).1.transcripts j = true := by
          rw [fileDone_congr hlk]; exact hdone
        have ihi := ih (transIter transcribe total i s).1
          (inv ++ (transIter transcribe total i s).2.toList) j hdone'
        refine ⟨ihi.1.trans hlk, ?_⟩
        · rw [ihi.2, ht.2]
          simp [hji]
      · have ht := transIter_done transcribe total h
        have hdone' : fileDone (transIter transcribe total i s).1.transcripts j = true := by
          rw [ht.1]; exact hdone
        have ihi := ih (transIter transcribe total i s).1
          (inv ++ (transIter transcribe total i s).2.toList) j hdone'
        refine ⟨?_, ?_⟩
        · rw [ihi.1, ht.1]
        · rw [ihi.2, ht.2]
          simp

/-- A unit whose file is missing or zero-size is produced by the loop when no
stop happens up to its index: its file ends up with the collaborator's output
and the collaborator is invoked for it. -/
theorem transGo_produces (transcribe : Nat → String) (stop : Nat → Bool) (total : Nat) :
    ∀ (l : List Nat) (s : ProcState) (inv : List Nat) (j : Nat),
      l.Pairwise (· ≤ ·) → l.Nodup → j ∈ l → (∀ i, i ≤ j → stop i = false) →
      fileDone s.transcripts j = false →
      lookupD (transGo transcribe stop total l s inv).1.transcripts j =
        some (transcribe j) ∧
      j ∈ (transGo transcribe stop total l s inv).2 := by
  intro l
  induction l with
  | nil => intro s inv j _ _ hj; cases hj
  | cons i rest ih =>
    intro s inv j hpair hnodup hj hstop hnd
    have hile : i ≤ j := by
      rcases List.mem_cons.mp hj with h | h
      · omega
      · exact List.rel_of_pairwise_cons hpair h
    have hsi : stop i = false := hstop i hile
    rw [transGo]
    rw [if_neg (by rw [hsi]; exact Bool.false_ne_true)]
    rcases List.mem_cons.mp hj with hji | hjr
    · subst hji
      have ht := transIter_not_done transcribe total hnd
      have hnotin : j ∉ rest := (List.nodup_cons.mp hnodup).1
      have hu := transGo_untouched transcribe stop total rest (transIter transcribe total j s).1
        (inv ++ (transIter transcribe total j s).2.toList) j hnotin
      refine ⟨?_, ?_⟩
      · rw [hu.1, ht.1, lookupD_writeD]
        simp
      · rw [hu.2, ht.2]
        simp
    · have hji : j ≠ i := by
        intro he
        exact (List.nodup_cons.mp hnodup).1 (he ▸ hjr)
      rcases h : fileDone s.transcripts i with _ | _
      · have ht := transIter_not_done transcribe total h
        have hnd' : fileDone (transIter transcribe total i s).1.transcripts j = false := by
          have hlk : lookupD (transIter transcribe total i s).1.transcripts j =
              lookupD s.transcripts j := by
            rw [ht.1, lookupD_writeD]; simp [hji]
          rw [fileDone_congr hlk]; exact hnd
        exact ih _ _ j hpair.of_cons (List.nodup_cons.mp hnodup).2 hjr hstop hnd'
      · have ht := transIter_done transcribe total h
        have hnd' : fileDone (transIter transcribe total i s).1.transcripts j = false := by
          rw [ht.1]; exact hnd
        exact ih _ _ j hpair.of_cons (List.nodup_cons.mp hnodup).2 hjr hstop hnd'

/-- Once the stop event is set at the boundary of unit `k`, the loop touches
no index at or beyond `k`. -/
theorem transGo_stop_bound (transcribe : Nat → String) (stop : Nat → Bool) (total : Nat) :
    ∀ (l : List Nat) (s : ProcState) (inv : List Nat) (k j : Nat),
      l.Pairwise (· ≤ ·) → k ∈ l → stop k = true → k ≤ j →
      lookupD (transGo transcribe stop total l s inv).1.transcripts j =
        lookupD s.transcripts j ∧
      (j ∈ (transGo transcribe stop total l s inv).2 ↔ j ∈ inv) := by
  intro l
  induction l with
  | nil => intro s inv k j _ hk; cases hk
  | cons i rest ih =>
    intro s inv k j hpair hk hsk hkj
    rw [transGo]
    split
    · exact ⟨rfl, Iff.rfl⟩
    · rename_i hstop
      have hik : i ≠ k := by
        intro he
        rw [he, hsk] at hstop
        exact hstop rfl
      have hkr : k ∈ rest := by
        rcases List.mem_cons.mp hk with h | h
        · exact absurd h.symm hik
        · exact h
      have hilek : i ≤ k := List.rel_of_pairwise_cons hpair hkr
      have hij : j ≠ i := by omega
      have ihi := ih (transIter transcribe total i s).1
        (inv ++ (transIter transcribe total i s).2.toList) k j hpair.of_cons hkr hsk hkj
      rcases h : fileDone s.transcripts i with _ | _
      · have ht := transIter_not_done transcribe total h
        refine ⟨?_, ?_⟩
        · rw [ihi.1, ht.1, lookupD_writeD]
          simp [hij]
        · rw [ihi.2, ht.2]
          simp [hij]
      · have ht := transIter_done transcribe total h
        refine ⟨?_, ?_⟩
        · rw [ihi.1, ht.1]
        · rw [ihi.2, ht.2]
          simp

/-- A skipped summarization iteration leaves the summaries directory
unchanged and does not invoke the collaborator. -/
theorem sumIter_done (summarize : String → String) (chunks : List String) {i : Nat}
    {s : ProcState} (h : fileDone s.summaries i = true) :
    (sumIter summarize chunks i s).1.summaries = s.summaries ∧
    (sumIter summarize chunks i s).2 = none := by
  constructor <;> simp [sumIter, sumStep, h]

/-- A non-skipped summarization iteration writes the collaborator's output
for the unit and records the invocation. -/
theorem sumIter_not_done (summarize : String → String) (chunks : List String) {i : Nat}
    {s : ProcState} (h : fileDone s.summaries i = false) :
    (sumIter summarize chunks i s).1.summaries =
      writeD s.summaries i (summarize (chunks.getD i "")) ∧
    (sumIter summarize chunks i s).2 = some i := by
  constructor <;> simp [sumIter, sumStep, h]

/-- One summarization iteration touches only the summaries directory, the
status message and the summarization progress. -/
theorem sumIter_frame (summarize : String → String) (chunks : List String) (i : Nat)
    (s : ProcState) :
    (sumIter summarize chunks i s).1.transcripts = s.transcripts ∧
    (sumIter summarize chunks i s).1.lectureClean = s.lectureClean ∧
    (sumIter summarize chunks i s).1.finalNotes = s.finalNotes ∧
    (sumIter summarize chunks i s).1.is_running = s.is_running ∧
    (sumIter summarize chunks i s).1.stopFlag = s.stopFlag := by
  rcases h : fileDone s.summaries i with _ | _ <;>
    refine ⟨?_, ?_, ?_, ?_, ?_⟩ <;> simp [sumIter, sumStep, h]

/-- The summarization loop touches only the summaries directory, the status
message and the summarization progress. -/
theorem sumGo_frame (summarize : String → String) (chunks : List String) (stop : Nat → Bool) :
    ∀ (l : List Nat) (s : ProcState) (inv : List Nat),
      (sumGo summarize chunks stop l s inv).1.transcripts = s.transcripts ∧
      (sumGo summarize chunks stop l s inv).1.lectureClean = s.lectureClean ∧
      (sumGo summarize chunks stop l s inv).1.finalNotes = s.finalNotes ∧
      (sumGo summarize chunks stop l s inv).1.is_running = s.is_running ∧
      (sumGo summarize chunks stop l s inv).1.stopFlag = s.stopFlag := by
  intro l
  induction l with
  | nil => intro s inv; exact ⟨rfl, rfl, rfl, rfl, rfl⟩
  | cons i rest ih =>
    intro s inv
    rw [sumGo]
    split
    · exact ⟨rfl, rfl, rfl, rfl, rfl⟩
    · have hi := ih (sumIter summarize chunks i s).1
        (inv ++ (sumIter summarize chunks i s).2.toList)
      have hf := sumIter_frame summarize chunks i s
      exact ⟨hi.1.trans hf.1, hi.2.1.trans hf.2.1, hi.2.2.1.trans hf.2.2.1,
        hi.2.2.2.1.trans hf.2.2.2.1, hi.2.2.2.2.trans hf.2.2.2.2⟩

/-- Indices outside the remaining work list are never touched by the
summarization loop. -/
theorem sumGo_untouched (summarize : String → String) (chunks : List String) (stop : Nat → Bool) :
    ∀ (l : List Nat) (s : ProcState) (inv : List Nat) (j : Nat), j ∉ l →
      lookupD (sumGo summarize chunks stop l s inv).1.summaries j =
        lookupD s.summaries j ∧
      (j ∈ (sumGo summarize chunks stop l s inv).2 ↔ j ∈ inv) := by
  intro l
  induction l with
  | nil => intro s inv j _; exact ⟨rfl, Iff.rfl⟩
  | cons i rest ih =>
    intro s inv j hj
    have hji : j ≠ i := fun h => hj (h ▸ List.mem_cons_self i rest)
    have hjr : j ∉ rest := fun h => hj (List.mem_cons_of_mem i h)
    rw [sumGo]
    split
    · exact ⟨rfl, Iff.rfl⟩
    · have ihi := ih (sumIter summarize chunks i s).1
        (inv ++ (sumIter summarize chunks i s).2.toList) j hjr
      rcases h : fileDone s.summaries i with _ | _
      · have ht := sumIter_not_done summarize chunks h
        refine ⟨?_, ?_⟩
        · rw [ihi.1, ht.1, lookupD_writeD]
          simp [hji]
        · rw [ihi.2, ht.2]
          simp [hji]
      · have ht := sumIter_done summarize chunks h
        refine ⟨?_, ?_⟩
        · rw [ihi.1, ht.1]
        · rw [ihi.2, ht.2]
          simp

/-- A summary unit file that exists with nonzero size is never overwritten by
the summarization loop, and the collaborator is not invoked for it. -/
theorem sumGo_preserves_done (summarize : String → String) (chunks : List String)
    (stop : Nat → Bool) :
    ∀ (l : List Nat) (s : ProcState) (inv : List Nat) (j : Nat),
      fileDone s.summaries j = true →
      lookupD (sumGo summarize chunks stop l s inv).1.summaries j =
        lookupD s.summaries j ∧
      (j ∈ (sumGo summarize chunks stop l s inv).2 ↔ j ∈ inv) := by
  intro l
  induction l with
  | nil => intro s inv j _; exact ⟨rfl, Iff.rfl⟩
  | cons i rest ih =>
    intro s inv j hdone
    rw [sumGo]
    split
    · exact ⟨rfl, Iff.rfl⟩
    · rcases h : fileDone s.summaries i with _ | _
      · have hji : j ≠ i := fun he => by rw [he] at hdone; rw [hdone] at h; cases h
        have ht := sumIter_not_done summarize chunks h
        have hlk : lookupD (sumIter summarize chunks i s).1.summaries j =
            lookupD s.summaries j := by
          rw [ht.1, lookupD_writeD]; simp [hji]
        have hdone' : fileDone (sumIter summarize chunks i s).1.summaries j = true := by
          rw [fileDone_congr hlk]; exact hdone
        have ihi := ih (sumIter summarize chunks i s).1
          (inv ++ (sumIter summarize chunks i s).2.toList) j hdone'
        refine ⟨ihi.1.trans hlk, ?_⟩
        · rw [ihi.2, ht.2]
          simp [hji]
      · have ht := sumIter_done summarize chunks h
        have hdone' : fileDone (sumIter summarize chunks i s).1.summaries j = true := by
          rw [ht.1]; exact hdone
        have ihi := ih (sumIter summarize chunks i s).1
          (inv ++ (sumIter summarize chunks i s).2.toList) j hdone'
        refine ⟨?_, ?_⟩
        · rw [ihi.1, ht.1]
        · rw [ihi.2, ht.2]
          simp

/-- A summary unit whose file is missing or zero-size is produced by the loop
when no stop happens up to its index. -/
theorem sumGo_produces (summarize : String → String) (chunks : List String) (stop : Nat → Bool) :
    ∀ (l : List Nat) (s : ProcState) (inv : List Nat) (j : Nat),
      l.Pairwise (· ≤ ·) → l.Nodup → j ∈ l → (∀ i, i ≤ j → stop i = false) →
      fileDone s.summaries j = false →
      lookupD (sumGo summarize chunks stop l s inv).1.summaries j =
        some (summarize (chunks.getD j "")) ∧
      j ∈ (sumGo summarize chunks stop l s inv).2 := by
  intro l
  induction l with
  | nil => intro s inv j _ _ hj; cases hj
  | cons i rest ih =>
    intro s inv j hpair hnodup hj hstop hnd
    have hile : i ≤ j := by
      rcases List.mem_cons.mp hj with h | h
      · omega
      · exact List.rel_of_pairwise_cons hpair h
    have hsi : stop i = false := hstop i hile
    rw [sumGo]
    rw [if_neg (by rw [hsi]; exact Bool.false_ne_true)]
    rcases List.mem_cons.mp hj with hji | hjr
    · subst hji
      have ht := sumIter_not_done summarize chunks hnd
      have hnotin : j ∉ rest := (List.nodup_cons.mp hnodup).1
      have hu := sumGo_untouched summarize chunks stop rest (sumIter summarize chunks j s).1
        (inv ++ (sumIter summarize chunks j s).2.toList) j hnotin
      refine ⟨?_, ?_⟩
      · rw [hu.1, ht.1, lookupD_writeD]
        simp
      · rw [hu.2, ht.2]
        simp
    · have hji : j ≠ i := by
        intro he
        exact (List.nodup_cons.mp hnodup).1 (he ▸ hjr)
      rcases h : fileDone s.summaries i with _ | _
      · have ht := sumIter_not_done summarize chunks h
        have hnd' : fileDone (sumIter summarize chunks i s).1.summaries j = false := by
          have hlk : lookupD (sumIter summarize chunks i s).1.summaries j =
              lookupD s.summaries j := by
            rw [ht.1, lookupD_writeD]; simp [hji]
          rw [fileDone_congr hlk]; exact hnd
        exact ih _ _ j hpair.of_cons (List.nodup_cons.mp hnodup).2 hjr hstop hnd'
      · have ht := sumIter_done summarize chunks h
        have hnd' : fileDone (sumIter summarize chunks i s).1.summaries j = false := by
          rw [ht.1]; exact hnd
        exact ih _ _ j hpair.of_cons (List.nodup_cons.mp hnodup).2 hjr hstop hnd'

/-- Once the stop event is set at the boundary of summary unit `k`, the loop
touches no index at or beyond `k`. -/
theorem sumGo_stop_bound (summarize : String → String) (chunks : List String)
    (stop : Nat → Bool) :
    ∀ (l : List Nat) (s : ProcState) (inv : List Nat) (k j : Nat),
      l.Pairwise (· ≤ ·) → k ∈ l → stop k = true → k ≤ j →
      lookupD (sumGo summarize chunks stop l s inv).1.summaries j =
        lookupD s.summaries j ∧
      (j ∈ (sumGo summarize chunks stop l s inv).2 ↔ j ∈ inv) := by
  intro l
  induction l with
  | nil => intro s inv k j _ hk; cases hk
  | cons i rest ih =>
    intro s inv k j hpair hk hsk hkj
    rw [sumGo]
    split
    · exact ⟨rfl, Iff.rfl⟩
    · rename_i hstop
      have hik : i ≠ k := by
        intro he
        rw [he, hsk] at hstop
        exact hstop rfl
      have hkr : k ∈ rest := by
        rcases List.mem_cons.mp hk with h | h
        · exact absurd h.symm hik
        · exact h
      have hilek : i ≤ k := List.rel_of_pairwise_cons hpair hkr
      have hij : j ≠ i := by omega
      have ihi := ih (sumIter summarize chunks i s).1
        (inv ++ (sumIter summarize chunks i s).2.toList) k j hpair.of_cons hkr hsk hkj
      rcases h : fileDone s.summaries i with _ | _
      · have ht := sumIter_not_done summarize chunks h
        refine ⟨?_, ?_⟩
        · rw [ihi.1, ht.1, lookupD_writeD]
          simp [hij]
        · rw [ihi.2, ht.2]
          simp [hij]
      · have ht := sumIter_done summarize chunks h
        refine ⟨?_, ?_⟩
        · rw [ihi.1, ht.1]
        · rw [ihi.2, ht.2]
          simp

/-- The transcription stage changes neither the summaries directory, the
final notes, the liveness flag, nor the stop flag. -/
theorem process_audio_batches_frame (transcribe : Nat → String) (n : Nat) (stop : Nat → Bool)
    (s : ProcState) :
    (process_audio_batches transcribe n stop s).2.1.summaries = s.summaries ∧
    (process_audio_batches transcribe n stop s).2.1.finalNotes = s.finalNotes ∧
    (process_audio_batches transcribe n stop s).2.1.is_running = s.is_running ∧
    (process_audio_batches transcribe n stop s).2.1.stopFlag = s.stopFlag := by
  by_cases hn : n = 0
  · subst hn
    exact ⟨rfl, rfl, rfl, rfl⟩
  · simp only [process_audio_batches, if_neg hn]
    have hf := transGo_frame transcribe (fun i => s.stopFlag || stop i) n (List.range n)
      { s with status_message := "Normalizing audio...", transcription_progress := 2/10 } []
    exact ⟨hf.1, hf.2.2.1, hf.2.2.2.1, hf.2.2.2.2⟩

/-- The transcription stage never overwrites a transcript unit file that
exists with nonzero size, and does not invoke the collaborator for it. -/
theorem process_audio_batches_preserves (transcribe : Nat → String) (n : Nat)
    (stop : Nat → Bool) (s : ProcState) (j : Nat)
    (hdone : fileDone s.transcripts j = true) :
    lookupD (process_audio_batches transcribe n stop s).2.1.transcripts j =
      lookupD s.transcripts j ∧
    j ∉ (process_audio_batches transcribe n stop s).2.2 := by
  by_cases hn : n = 0
  · subst hn
    exact ⟨rfl, List.not_mem_nil j⟩
  · simp only [process_audio_batches, if_neg hn]
    have h := transGo_preserves_done transcribe (fun i => s.stopFlag || stop i) n
      (List.range n)
      { s with status_message := "Normalizing audio...", transcription_progress := 2/10 }
      [] j hdone
    exact ⟨h.1, fun hm => List.not_mem_nil j (h.2.mp hm)⟩

/-- The transcription stage produces every unit below the chunk count whose
file is missing or zero-size, invoking the collaborator for it, provided no
stop happens up to that unit. -/
theorem process_audio_batches_produces (transcribe : Nat → String) (n : Nat)
    (stop : Nat → Bool) (s : ProcState) (j : Nat) (hsf : s.stopFlag = false)
    (hstop : ∀ i, i ≤ j → stop i = false) (hj : j < n)
    (hnd : fileDone s.transcripts j = false) :
    lookupD (process_audio_batches transcribe n stop s).2.1.transcripts j =
      some (transcribe j) ∧
    j ∈ (process_audio_batches transcribe n stop s).2.2 := by
  have hn : n ≠ 0 := by omega
  simp only [process_audio_batches, if_neg hn]
  have h := transGo_produces transcribe (fun i => s.stopFlag || stop i) n (List.range n)
    { s with status_message := "Normalizing audio...", transcription_progress := 2/10 }
    [] j (List.sorted_le_range n) (List.nodup_range n) (List.mem_range.mpr hj)
    (fun i hi => by show (s.stopFlag || stop i) = false; rw [hsf, hstop i hi]; rfl) hnd
  exact ⟨h.1, h.2⟩

/-- If the stop event is set at the boundary of unit `k`, the transcription
stage touches no transcript index at or beyond `k`. -/
theorem process_audio_batches_stop_bound (transcribe : Nat → String) (n : Nat)
    (stop : Nat → Bool) (s : ProcState) (k j : Nat) (hsk : stop k = true) (hkj : k ≤ j) :
    lookupD (process_audio_batches transcribe n stop s).2.1.transcripts j =
      lookupD s.transcripts j ∧
    j ∉ (process_audio_batches transcribe n stop s).2.2 := by
  by_cases hn : n = 0
  · subst hn
    exact ⟨rfl, List.not_mem_nil j⟩
  · simp only [process_audio_batches, if_neg hn]
    by_cases hkn : k < n
    · have h := transGo_stop_bound transcribe (fun i => s.stopFlag || stop i) n (List.range n)
        { s with status_message := "Normalizing audio...", transcription_progress := 2/10 }
        [] k j (List.sorted_le_range n) (List.mem_range.mpr hkn)
        (by show (s.stopFlag || stop k) = true; rw [hsk, Bool.or_true]) hkj
      exact ⟨h.1, fun hm => List.not_mem_nil j (h.2.mp hm)⟩
    · have hjn : j ∉ List.range n := by
        rw [List.mem_range]
        omega
      have h := transGo_untouched transcribe (fun i => s.stopFlag || stop i) n (List.range n)
        { s with status_message := "Normalizing audio...", transcription_progress := 2/10 }
        [] j hjn
      exact ⟨h.1, fun hm => List.not_mem_nil j (h.2.mp hm)⟩

/-- The summarization stage changes neither the transcripts directory, the
cleaned transcript, the liveness flag, nor the stop flag. -/
theorem process_summary_batches_frame (summarize : String → String) (stop : Nat → Bool)
    (s : ProcState) :
    (process_summary_batches summarize stop s).2.1.transcripts = s.transcripts ∧
    (process_summary_batches summarize stop s).2.1.lectureClean = s.lectureClean ∧
    (process_summary_batches summarize stop s).2.1.is_running = s.is_running ∧
    (process_summary_batches summarize stop s).2.1.stopFlag = s.stopFlag := by
  rcases hlc : s.lectureClean with _ | text
  · simp [process_summary_batches, hlc]
  · simp only [process_summary_batches, hlc]
    by_cases hc : (split_text_into_chunks text 500).length = 0
    · simp [process_summary_batches, hlc, hc]
    · simp only [if_neg hc]
      have hf := sumGo_frame summarize (split_text_into_chunks text 500)
        (fun i => s.stopFlag || stop i) (List.range (split_text_into_chunks text 500).length)
        { s with lectureClean := some text,
                 status_message := "Preparing text for summary...",
                 summarization_progress := 0 } []
      exact ⟨hf.1, hf.2.1, hf.2.2.2.1, hf.2.2.2.2⟩

/-- The summarization stage never overwrites a summary unit file that exists
with nonzero size, and does not invoke the collaborator for it. -/
theorem process_summary_batches_preserves (summarize : String → String) (stop : Nat → Bool)
    (s : ProcState) (j : Nat) (hdone : fileDone s.summaries j = true) :
    lookupD (process_summary_batches summarize stop s).2.1.summaries j =
      lookupD s.summaries j ∧
    j ∉ (process_summary_batches summarize stop s).2.2 := by
  rcases hlc : s.lectureClean with _ | text
  · simp only [process_summary_batches, hlc]
    exact ⟨trivial, by simp⟩
  · simp only [process_summary_batches, hlc]
    by_cases hc : (split_text_into_chunks text 500).length = 0
    · simp only [if_pos hc]
      exact ⟨trivial, by simp⟩
    · simp only [if_neg hc]
      have h := sumGo_preserves_done summarize (split_text_into_chunks text 500)
        (fun i => s.stopFlag || stop i) (List.range (split_text_into_chunks text 500).length)
        { s with lectureClean := some text,
                 status_message := "Preparing text for summary...",
                 summarization_progress := 0 } [] j hdone
      exact ⟨h.1, fun hm => List.not_mem_nil j (h.2.mp hm)⟩

/-- The summarization stage produces every segment index whose summary file is
missing or zero-size, invoking the collaborator on that segment's text,
provided no stop happens up to that unit. -/
theorem process_summary_batches_produces (summarize : String → String) (stop : Nat → Bool)
    (s : ProcState) (text : String) (j : Nat) (hlc : s.lectureClean = some text)
    (hsf : s.stopFlag = false) (hstop : ∀ i, i ≤ j → stop i = false)
    (hj : j < (split_text_into_chunks text 500).length)
    (hnd : fileDone s.summaries j = false) :
    lookupD (process_summary_batches summarize stop s).2.1.summaries j =
      some (summarize ((split_text_into_chunks text 500).getD j "")) ∧
    j ∈ (process_summary_batches summarize stop s).2.2 := by
  have hc : (split_text_into_chunks text 500).length ≠ 0 := by omega
  simp only [process_summary_batches, hlc, if_neg hc]
  have h := sumGo_produces summarize (split_text_into_chunks text 500)
    (fun i => s.stopFlag || stop i) (List.range (split_text_into_chunks text 500).length)
    { s with lectureClean := some text,
             status_message := "Preparing text for summary...",
             summarization_progress := 0 } [] j
    (List.sorted_le_range _) (List.nodup_range _) (List.mem_range.mpr hj)
    (fun i hi => by show (s.stopFlag || stop i) = false; rw [hsf, hstop i hi]; rfl) hnd
  exact ⟨h.1, h.2⟩

/-- If the stop event is set at the boundary of summary unit `k`, the
summarization stage touches no summary index at or beyond `k`. -/
theorem process_summary_batches_stop_bound (summarize : String → String) (stop : Nat → Bool)
    (s : ProcState) (k j : Nat) (hsk : stop k = true) (hkj : k ≤ j) :
    lookupD (process_summary_batches summarize stop s).2.1.summaries j =
      lookupD s.summaries j ∧
    j ∉ (process_summary_batches summarize stop s).2.2 := by
  rcases hlc : s.lectureClean with _ | text
  · simp only [process_summary_batches, hlc]
    exact ⟨trivial, by simp⟩
  · simp only [process_summary_batches, hlc]
    by_cases hc : (split_text_into_chunks text 500).length = 0
    · simp only [if_pos hc]
      exact ⟨trivial, by simp⟩
    · simp only [if_neg hc]
      by_cases hkn : k < (split_text_into_chunks text 500).length
      · have h := sumGo_stop_bound summarize (split_text_into_chunks text 500)
          (fun i => s.stopFlag || stop i) (List.range (split_text_into_chunks text 500).length)
          { s with lectureClean := some text,
                   status_message := "Preparing text for summary...",
                   summarization_progress := 0 } [] k j
          (List.sorted_le_range _) (List.mem_range.mpr hkn)
          (by show (s.stopFlag || stop k) = true; rw [hsk, Bool.or_true]) hkj
        exact ⟨h.1, fun hm => List.not_mem_nil j (h.2.mp hm)⟩
      · have hjn : j ∉ List.range (split_text_into_chunks text 500).length := by
          rw [List.mem_range]
          omega
        have h := sumGo_untouched summarize (split_text_into_chunks text 500)
          (fun i => s.stopFlag || stop i) (List.range (split_text_into_chunks text 500).length)
          { s with lectureClean := some text,
                   status_message := "Preparing text for summary...",
                   summarization_progress := 0 } [] j hjn
        exact ⟨h.1, fun hm => List.not_mem_nil j (h.2.mp hm)⟩

/-- With a nonempty chunk list the transcription stage returns True — even
when the stop event is set. -/
theorem process_audio_batches_ret (transcribe : Nat → String) (n : Nat) (stop : Nat → Bool)
    (s : ProcState) (hn : n ≠ 0) :
    (process_audio_batches transcribe n stop s).1 = true := by
  simp only [process_audio_batches, if_neg hn]

/-- With an empty chunk list the transcription stage returns False and runs
neither the loop nor the merge. -/
theorem process_audio_batches_failed (transcribe : Nat → String) (stop : Nat → Bool)
    (s : ProcState) :
    process_audio_batches transcribe 0 stop s =
      (false, { s with status_message := "Audio chunking failed.",
                       transcription_progress := 1/10 }, []) := rfl

/-- After a non-failed transcription stage, `lecture_clean.txt` holds the
merge of the final transcript directory, and the stage progress is 1. -/
theorem process_audio_batches_merges (transcribe : Nat → String) (n : Nat) (stop : Nat → Bool)
    (s : ProcState) (hn : n ≠ 0) :
    (process_audio_batches transcribe n stop s).2.1.lectureClean =
      some (merge_text (process_audio_batches transcribe n stop s).2.1.transcripts) ∧
    (process_audio_batches transcribe n stop s).2.1.transcription_progress = 1 := by
  simp [process_audio_batches, merge_transcripts, hn]

/-- After a non-failed summarization stage, the final notes hold the compile
of the final summary directory, and the stage progress is 1. -/
theorem process_summary_batches_compiles (summarize : String → String) (stop : Nat → Bool)
    (s : ProcState) (text : String) (hlc : s.lectureClean = some text)
    (hc : (split_text_into_chunks text 500).length ≠ 0) :
    (process_summary_batches summarize stop s).1 = true ∧
    (process_summary_batches summarize stop s).2.1.finalNotes =
      some (compile_text (process_summary_batches summarize stop s).2.1.summaries) ∧
    (process_summary_batches summarize stop s).2.1.summarization_progress = 1 := by
  simp [process_summary_batches, compile_final_notes, hlc, hc]

/-- When the stop event is already set before the call, the transcription
loop exits before its first unit: nothing is invoked and the transcript
directory is unchanged. -/
theorem process_audio_batches_stopped (transcribe : Nat → String) (n : Nat)
    (stop : Nat → Bool) (s : ProcState) (hsf : s.stopFlag = true) (hn : n ≠ 0) :
    (process_audio_batches transcribe n stop s).2.2 = [] ∧
    (process_audio_batches transcribe n stop s).2.1.transcripts = s.transcripts := by
  obtain ⟨m, rfl⟩ : ∃ m, n = m + 1 := ⟨n - 1, by omega⟩
  simp only [process_audio_batches, if_neg hn]
  rw [List.range_succ_eq_map]
  simp only [transGo]
  rw [if_pos (show ((fun i => s.stopFlag || stop i) 0) = true from by
    show (s.stopFlag || stop 0) = true
    rw [hsf, Bool.true_or])]
  exact ⟨rfl, rfl⟩

/-- When the stop event is already set before the call, the summarization
loop exits before its first unit: nothing is invoked and the summary
directory is unchanged. -/
theorem process_summary_batches_stopped (summarize : String → String) (stop : Nat → Bool)
    (s : ProcState) (text : String) (hsf : s.stopFlag = true)
    (hlc : s.lectureClean = some text)
    (hc : (split_text_into_chunks text 500).length ≠ 0) :
    (process_summary_batches summarize stop s).2.2 = [] ∧
    (process_summary_batches summarize stop s).2.1.summaries = s.summaries := by
  obtain ⟨m, hm⟩ : ∃ m, (split_text_into_chunks text 500).length = m + 1 :=
    ⟨(split_text_into_chunks text 500).length - 1, by omega⟩
  simp only [process_summary_batches, hlc, if_neg hc]
  rw [hm, List.range_succ_eq_map]
  simp only [sumGo]
  rw [if_pos (show ((fun i => s.stopFlag || stop i) 0) = true from by
    show (s.stopFlag || stop 0) = true
    rw [hsf, Bool.true_or])]
  exact ⟨rfl, rfl⟩

/-- The pipeline thread's `finally:` clears `is_running` on every exit path. -/
theorem run_pipeline_not_running (stt summ : ProcState → StageOutcome) (s0 : ProcState) :
    (run_pipeline stt summ s0).is_running = false := rfl

/-- When the transcription stage reports success the pipeline invokes the
summarization stage on its final state. -/
theorem run_pipeline_concrete_comp (transcribe : Nat → String) (n : Nat)
    (summarize : String → String) (stopT stopS : Nat → Bool) (s0 : ProcState)
    (h : (process_audio_batches transcribe n stopT { s0 with is_running := true }).1 = true) :
    run_pipeline_concrete transcribe n summarize stopT stopS s0 =
      { (process_summary_batches summarize stopS
          (process_audio_batches transcribe n stopT
            { s0 with is_running := true }).2.1).2.1 with is_running := false } := by
  simp only [run_pipeline_concrete, run_pipeline, stageSTT, stageSUM, h]

/-- For positive `C`, the chunk count `(D + C - 1) / C` covers `D`. -/
theorem ceil_count_covers (D C : Nat) (hC : 0 < C) : D ≤ (D + C - 1) / C * C := by
  have h1 := Nat.div_add_mod (D + C - 1) C
  have h2 : (D + C - 1) % C < C := Nat.mod_lt _ hC
  have h3 : C * ((D + C - 1) / C) = (D + C - 1) / C * C := Nat.mul_comm _ _
  omega

/-- For positive `C`, the chunk count `(D + C - 1) / C` is the least count
whose chunks of length `C` can cover `D`. -/
theorem ceil_count_least (D C m : Nat) (hC : 0 < C) (hm : D ≤ m * C) :
    (D + C - 1) / C ≤ m := by
  have h1 : (D + C - 1) / C < m + 1 ↔ D + C - 1 < (m + 1) * C := Nat.div_lt_iff_lt_mul hC
  have h2 : (m + 1) * C = m * C + C := by ring
  omega

/-- Summing the chunk durations of the first `k` spans gives `min (k*C) D`. -/
theorem sum_span_durations (D C : Nat) :
    ∀ k, ((List.range k).map (fun i => min ((i + 1) * C) D - i * C)).sum = min (k * C) D := by
  intro k
  induction k with
  | zero => simp
  | succ k ih =>
    rw [List.range_succ, List.map_append, List.sum_append, ih]
    have h2 : (k + 1) * C = k * C + C := by ring
    simp only [List.map_cons, List.map_nil, List.sum_cons, List.sum_nil]
    rcases Nat.le_total (k * C) D with h | h
    · rcases Nat.le_total ((k + 1) * C) D with h' | h'
      · rw [Nat.min_eq_left h, Nat.min_eq_left h']
        omega
      · rw [Nat.min_eq_left h, Nat.min_eq_right h']
        omega
    · have h' : D ≤ (k + 1) * C := by omega
      rw [Nat.min_eq_right h, Nat.min_eq_right h']
      omega

/-- C5: for audio duration `D` (ms) and chunk length `C > 0` (ms), splitting
produces exactly `ceil(D/C)` chunks (`(D+C-1)/C`, characterized as the least
count covering `D`), in index order; chunk `i` covers `[i*C, min((i+1)*C, D))`;
every chunk's duration is at most `C`; and the durations sum to `D`. -/
theorem C5_split_audio_spans_correct (D C : Nat) (hC : 0 < C) :
    (split_audio_spans D C).length = (D + C - 1) / C ∧
    D ≤ (split_audio_spans D C).length * C ∧
    (∀ m, D ≤ m * C → (split_audio_spans D C).length ≤ m) ∧
    (∀ i, ∀ h : i < (split_audio_spans D C).length,
      (split_audio_spans D C)[i] = (i * C, min ((i + 1) * C) D)) ∧
    (∀ sp ∈ split_audio_spans D C, sp.2 - sp.1 ≤ C) ∧
    ((split_audio_spans D C).map (fun sp => sp.2 - sp.1)).sum = D := by
  have hlen : (split_audio_spans D C).length = (D + C - 1) / C := by
    simp [split_audio_spans]
  refine ⟨hlen, ?_, ?_, ?_, ?_, ?_⟩
  · rw [hlen]; exact ceil_count_covers D C hC
  · intro m hm; rw [hlen]; exact ceil_count_least D C m hC hm
  · intro i h
    simp [split_audio_spans]
  · intro sp hsp
    simp only [split_audio_spans, List.mem_map, List.mem_range] at hsp
    obtain ⟨i, _, rfl⟩ := hsp
    have h2 : (i + 1) * C = i * C + C := by ring
    rcases Nat.le_total ((i + 1) * C) D with h | h
    · rw [Nat.min_eq_left h]; omega
    · rw [Nat.min_eq_right h]; omega
  · have hmap : (split_audio_spans D C).map (fun sp => sp.2 - sp.1) =
        (List.range ((D + C - 1) / C)).map (fun i => min ((i + 1) * C) D - i * C) := by
      simp [split_audio_spans]
    rw [hmap, sum_span_durations]
    have hcov := ceil_count_covers D C hC
    exact Nat.min_eq_right hcov

/-- Witness for C5 at the spec's end-to-end scenario: a 65-second audio with
30-second chunks gives 3 chunks of durations 30 s, 30 s, 5 s summing to 65 s. -/
theorem C5_split_audio_spans_correct_witness :
    (0 < 30000 ∧ (split_audio_spans 65000 30000).length = 3) ∧
    ((split_audio_spans 65000 30000).map (fun sp => sp.2 - sp.1)).sum = 65000 := by
  refine ⟨⟨by decide, ?_⟩, (C5_split_audio_spans_correct 65000 30000 (by decide)).2.2.2.2.2⟩
  have h := (C5_split_audio_spans_correct 65000 30000 (by decide)).1
  rw [h]

/-- C1: for every transcription or summarization run (run to completion, stop
event unset): a unit file that already exists with nonzero size before the
unit is processed is left byte-for-byte unchanged and the collaborator is not
invoked for it, while every unit whose file is missing or zero-size is
produced with the collaborator's output. -/
theorem C1_skip_if_exists (transcribe : Nat → String) (n : Nat)
    (summarize : String → String) (stop : Nat → Bool) (s : ProcState)
    (hsf : s.stopFlag = false) (hstop : ∀ i, stop i = false) :
    ((∀ i, fileDone s.transcripts i = true →
        lookupD (process_audio_batches transcribe n stop s).2.1.transcripts i =
          lookupD s.transcripts i ∧
        i ∉ (process_audio_batches transcribe n stop s).2.2) ∧
     (∀ i, i < n → fileDone s.transcripts i = false →
        lookupD (process_audio_batches transcribe n stop s).2.1.transcripts i =
          some (transcribe i) ∧
        i ∈ (process_audio_batches transcribe n stop s).2.2)) ∧
    ((∀ i, fileDone s.summaries i = true →
        lookupD (process_summary_batches summarize stop s).2.1.summaries i =
          lookupD s.summaries i ∧
        i ∉ (process_summary_batches summarize stop s).2.2) ∧
     (∀ text i, s.lectureClean = some text →
        i < (split_text_into_chunks text 500).length →
        fileDone s.summaries i = false →
        lookupD (process_summary_batches summarize stop s).2.1.summaries i =
          some (summarize ((split_text_into_chunks text 500).getD i "")) ∧
        i ∈ (process_summary_batches summarize stop s).2.2)) := by
  refine ⟨⟨?_, ?_⟩, ?_, ?_⟩
  · intro i hdone
    exact process_audio_batches_preserves transcribe n stop s i hdone
  · intro i hi hnd
    exact process_audio_batches_produces transcribe n stop s i hsf
      (fun i' _ => hstop i') hi hnd
  · intro i hdone
    exact process_summary_batches_preserves summarize stop s i hdone
  · intro text i hlc hi hnd
    exact process_summary_batches_produces summarize stop s text i hlc hsf
      (fun i' _ => hstop i') hi hnd

/-- Witness for C1 at the spec's recovery scenario: re-running the
transcription stage over 5 chunks where unit 2 already exists with content
"X" leaves unit 2 equal to "X" without invoking the collaborator, and
produces the missing units (0 shown here; 0,1,3,4 all behave alike). -/
theorem C1_skip_if_exists_witness :
    lookupD (process_audio_batches (fun _ => "T") 5 (fun _ => false)
      { initState with transcripts := [(2, "X")] }).2.1.transcripts 2 = some "X" ∧
    2 ∉ (process_audio_batches (fun _ => "T") 5 (fun _ => false)
      { initState with transcripts := [(2, "X")] }).2.2 ∧
    lookupD (process_audio_batches (fun _ => "T") 5 (fun _ => false)
      { initState with transcripts := [(2, "X")] }).2.1.transcripts 0 = some "T" ∧
    0 ∈ (process_audio_batches (fun _ => "T") 5 (fun _ => false)
      { initState with transcripts := [(2, "X")] }).2.2 := by
  have h := C1_skip_if_exists (fun _ => "T") 5 (fun _ => "S") (fun _ => false)
    { initState with transcripts := [(2, "X")] } rfl (fun _ => rfl)
  have h2 := h.1.1 2 (by decide)
  have h0 := h.1.2 0 (by decide) (by decide)
  exact ⟨h2.1.trans (by decide), h2.2, h0.1, h0.2⟩

/-- C2: if the cooperative stop flag is set at the boundary of unit `k`, the
stage writes no unit file with index at or beyond `k` (and does not invoke
the collaborator there), units written before the stop remain on disk, units
below `k` are still produced when the flag was unset up to them, and
`is_running` is false after the pipeline run returns. -/
theorem C2_stop_semantics (transcribe : Nat → String) (n : Nat)
    (summarize : String → String) (stop : Nat → Bool) (s : ProcState) (k : Nat)
    (hsk : stop k = true) :
    (∀ j, k ≤ j →
      lookupD (process_audio_batches transcribe n stop s).2.1.transcripts j =
        lookupD s.transcripts j ∧
      j ∉ (process_audio_batches transcribe n stop s).2.2) ∧
    (∀ j, fileDone s.transcripts j = true →
      lookupD (process_audio_batches transcribe n stop s).2.1.transcripts j =
        lookupD s.transcripts j) ∧
    (∀ j, j < k → j < n → s.stopFlag = false → (∀ i, i < k → stop i = false) →
      fileDone s.transcripts j = false →
      lookupD (process_audio_batches transcribe n stop s).2.1.transcripts j =
        some (transcribe j)) ∧
    (∀ j, k ≤ j →
      lookupD (process_summary_batches summarize stop s).2.1.summaries j =
        lookupD s.summaries j ∧
      j ∉ (process_summary_batches summarize stop s).2.2) ∧
    (∀ j, fileDone s.summaries j = true →
      lookupD (process_summary_batches summarize stop s).2.1.summaries j =
        lookupD s.summaries j) ∧
    (∀ stopS s0, (run_pipeline_concrete transcribe n summarize stop stopS s0).is_running =
      false) := by
  refine ⟨?_, ?_, ?_, ?_, ?_, ?_⟩
  · intro j hkj
    exact process_audio_batches_stop_bound transcribe n stop s k j hsk hkj
  · intro j hdone
    exact (process_audio_batches_preserves transcribe n stop s j hdone).1
  · intro j hjk hjn hsf hstop hnd
    exact (process_audio_batches_produces transcribe n stop s j hsf
      (fun i hi => hstop i (by omega)) hjn hnd).1
  · intro j hkj
    exact process_summary_batches_stop_bound summarize stop s k j hsk hkj
  · intro j hdone
    exact (process_summary_batches_preserves summarize stop s j hdone).1
  · intro stopS s0
    exact run_pipeline_not_running _ _ s0

/-- Witness for C2 at the spec's scenario: stopping before unit 3 of 5 on a
fresh directory leaves exactly units 0, 1, 2 existing, and `is_running` is
false after the pipeline run returns. -/
theorem C2_stop_semantics_witness :
    lookupD (process_audio_batches (fun _ => "T") 5 (fun i => decide (3 ≤ i))
      initState).2.1.transcripts 2 = some "T" ∧
    lookupD (process_audio_batches (fun _ => "T") 5 (fun i => decide (3 ≤ i))
      initState).2.1.transcripts 3 = none ∧
    lookupD (process_audio_batches (fun _ => "T") 5 (fun i => decide (3 ≤ i))
      initState).2.1.transcripts 4 = none ∧
    (run_pipeline_concrete (fun _ => "T") 5 (fun _ => "S") (fun i => decide (3 ≤ i))
      (fun _ => true) initState).is_running = false := by
  have h := C2_stop_semantics (fun _ => "T") 5 (fun _ => "S") (fun i => decide (3 ≤ i))
    initState 3 (by decide)
  refine ⟨?_, ?_, ?_, h.2.2.2.2.2 (fun _ => true) initState⟩
  · exact h.2.2.1 2 (by decide) (by decide) rfl
      (fun i hi => decide_eq_false (by omega)) (by decide)
  · exact (h.1 3 (by decide)).1.trans (by decide)
  · exact (h.1 4 (by decide)).1.trans (by decide)

/-- C9: `is_running` is true for the state the stages observe and false after
every exit path of the pipeline run, and an exception raised by either stage
is captured into `status_message` as "Error: ..." rather than propagated (the
runner is a total function into final states). -/
theorem C9_is_running_and_capture (stt summ : ProcState → StageOutcome) (s0 : ProcState) :
    (run_pipeline stt summ s0).is_running = false ∧
    ({ s0 with is_running := true } : ProcState).is_running = true ∧
    (∀ e s', stt { s0 with is_running := true } = .raised e s' →
      run_pipeline stt summ s0 =
        { s' with status_message := "Error: " ++ e, is_running := false }) ∧
    (∀ st e s', stt { s0 with is_running := true } = .ret true st →
      summ st = .raised e s' →
      run_pipeline stt summ s0 =
        { s' with status_message := "Error: " ++ e, is_running := false }) := by
  refine ⟨run_pipeline_not_running stt summ s0, rfl, ?_, ?_⟩
  · intro e s' h
    simp only [run_pipeline, h]
  · intro st e s' h1 h2
    simp only [run_pipeline, h1, h2]

/-- Witness for C9: a transcription stage raising "boom" ends the run with
the message "Error: boom" and `is_running` false. -/
theorem C9_is_running_and_capture_witness :
    (run_pipeline (fun s => .raised "boom" s) (fun s => .ret true s)
      initState).status_message = "Error: boom" ∧
    (run_pipeline (fun s => .raised "boom" s) (fun s => .ret true s)
      initState).is_running = false := by
  have h := C9_is_running_and_capture (fun s => .raised "boom" s) (fun s => .ret true s)
    initState
  refine ⟨?_, h.1⟩
  have h2 := h.2.2.1 "boom" { initState with is_running := true } rfl
  rw [h2]
  rfl

/-- A unit whose completion check passes has an existing file. -/
theorem fileDone_isSome {d : DirListing} {i : Nat} (h : fileDone d i = true) :
    (lookupD d i).isSome = true := by
  unfold fileDone at h
  rcases hl : lookupD d i with _ | c
  · rw [hl] at h
    cases h
  · rfl

/-- C3 counterexample: a pipeline run over 2 chunks whose stop event is set
at the boundary of transcription unit 1 (so the run is stopped early during
transcription, and the event is still set at every summarization boundary)
nevertheless enters the summarization stage: the run ends with the final
notes file written and the status of the compile step, contradicting the
claim that stage N+1 is not invoked after a stop during stage N. -/
theorem C3_counterexample :
    (run_pipeline_concrete (fun _ => "T") 2 (fun _ => "S") (fun i => decide (1 ≤ i))
      (fun _ => true) initState).finalNotes = some "# Final Lecture Notes\n\n" ∧
    (run_pipeline_concrete (fun _ => "T") 2 (fun _ => "S") (fun i => decide (1 ≤ i))
      (fun _ => true) initState).status_message = "Compiling final notes..." := by
  exact ⟨by decide, by decide⟩

/-- C3 amended: the transcription stage reports success whenever its chunk
list is nonempty — also under early stop — so the pipeline always invokes the
summarization stage on the transcription stage's final state; absent a stop,
the transcription output is fully materialized (every unit file exists and
`lecture_clean.txt` is their merge) before summarization begins. -/
theorem C3_stage_sequencing (transcribe : Nat → String) (n : Nat)
    (summarize : String → String) (stopT stopS : Nat → Bool) (s0 : ProcState)
    (hn : n ≠ 0) :
    (process_audio_batches transcribe n stopT { s0 with is_running := true }).1 = true ∧
    run_pipeline_concrete transcribe n summarize stopT stopS s0 =
      { (process_summary_batches summarize stopS
          (process_audio_batches transcribe n stopT
            { s0 with is_running := true }).2.1).2.1 with is_running := false } ∧
    (s0.stopFlag = false → (∀ i, stopT i = false) →
      (∀ i, i < n →
        (lookupD (process_audio_batches transcribe n stopT
          { s0 with is_running := true }).2.1.transcripts i).isSome = true) ∧
      (process_audio_batches transcribe n stopT
        { s0 with is_running := true }).2.1.lectureClean =
        some (merge_text (process_audio_batches transcribe n stopT
          { s0 with is_running := true }).2.1.transcripts)) := by
  have hret := process_audio_batches_ret transcribe n stopT
    { s0 with is_running := true } hn
  refine ⟨hret, run_pipeline_concrete_comp transcribe n summarize stopT stopS s0 hret, ?_⟩
  intro hsf hstop
  constructor
  · intro i hi
    rcases hd : fileDone ({ s0 with is_running := true } : ProcState).transcripts i with _ | _
    · have hp := (process_audio_batches_produces transcribe n stopT
        { s0 with is_running := true } i hsf (fun i' _ => hstop i') hi hd).1
      rw [hp]
      rfl
    · have hp := (process_audio_batches_preserves transcribe n stopT
        { s0 with is_running := true } i hd).1
      rw [hp]
      exact fileDone_isSome hd
  · exact (process_audio_batches_merges transcribe n stopT
      { s0 with is_running := true } hn).1

/-- Witness for the amended C3: stopping before unit 1 of 2 still yields a
successful transcription stage, and the composition equation instantiates. -/
theorem C3_stage_sequencing_witness :
    (process_audio_batches (fun _ => "T") 2 (fun i => decide (1 ≤ i))
      { initState with is_running := true }).1 = true ∧
    run_pipeline_concrete (fun _ => "T") 2 (fun _ => "S") (fun i => decide (1 ≤ i))
      (fun _ => true) initState =
      { (process_summary_batches (fun _ => "S") (fun _ => true)
          (process_audio_batches (fun _ => "T") 2 (fun i => decide (1 ≤ i))
            { initState with is_running := true }).2.1).2.1 with is_running := false } := by
  have h := C3_stage_sequencing (fun _ => "T") 2 (fun _ => "S") (fun i => decide (1 ≤ i))
    (fun _ => true) initState (by decide)
  exact ⟨h.1, h.2.1⟩

/-- C4 counterexample: over one chunk whose transcription subprocess exits
nonzero, the first run writes the empty failure result to the unit file; a
second run of the stage, with no manual deletion in between, invokes the
collaborator for that unit again — contradicting the claim that a failed
unit is not retried automatically on a re-run. -/
theorem C4_counterexample :
    lookupD (process_audio_batches (fun _ => transcribe_file (SttOutcome.exited 1 "x")) 1
      (fun _ => false) initState).2.1.transcripts 0 = some "" ∧
    0 ∈ (process_audio_batches (fun _ => transcribe_file (SttOutcome.exited 1 "x")) 1
      (fun _ => false)
      (process_audio_batches (fun _ => transcribe_file (SttOutcome.exited 1 "x")) 1
        (fun _ => false) initState).2.1).2.2 := by
  exact ⟨by decide, by decide⟩

/-- C4 amended: per-unit collaborator failures are encoded in data (empty
transcript, sentinel summary), do not abort the stage, and are written as the
unit's file content.  A failed summary unit (nonempty sentinel) counts as
processed: a re-run skips it and only manual deletion forces a retry.  A
failed transcription unit, however, has a zero-size file, so a re-run of the
stage invokes the collaborator for it again automatically. -/
theorem C4_failure_policy (n : Nat) (stop : Nat → Bool) (s : ProcState)
    (transcribe : Nat → String) (summarize : String → String)
    (hsf : s.stopFlag = false) (hstop : ∀ i, stop i = false) :
    (∀ c out, transcribe_file (SttOutcome.exited (c + 1) out) = "" ∧
      transcribe_file SttOutcome.exc = "" ∧
      summarize_text_chunk OllamaOutcome.notFound = "[Error: Ollama not found]") ∧
    (n ≠ 0 → (process_audio_batches transcribe n stop s).1 = true) ∧
    (∀ i, i < n → fileDone s.transcripts i = false →
      lookupD (process_audio_batches transcribe n stop s).2.1.transcripts i =
        some (transcribe i)) ∧
    (∀ i, i < n → lookupD s.transcripts i = some "" →
      i ∈ (process_audio_batches transcribe n stop s).2.2) ∧
    (∀ i, lookupD s.summaries i = some "[Error: Ollama not found]" →
      lookupD (process_summary_batches summarize stop s).2.1.summaries i =
        some "[Error: Ollama not found]" ∧
      i ∉ (process_summary_batches summarize stop s).2.2) := by
  refine ⟨fun c out => ⟨rfl, rfl, rfl⟩, ?_, ?_, ?_, ?_⟩
  · intro hn
    exact process_audio_batches_ret transcribe n stop s hn
  · intro i hi hnd
    exact (process_audio_batches_produces transcribe n stop s i hsf
      (fun i' _ => hstop i') hi hnd).1
  · intro i hi hempty
    have hnd : fileDone s.transcripts i = false := by
      unfold fileDone
      rw [hempty]
      rfl
    exact (process_audio_batches_produces transcribe n stop s i hsf
      (fun i' _ => hstop i') hi hnd).2
  · intro i hsent
    have hdone : fileDone s.summaries i = true := by
      unfold fileDone
      rw [hsent]
      rfl
    have hp := process_summary_batches_preserves summarize stop s i hdone
    exact ⟨hp.1.trans hsent, hp.2⟩

/-- Witness for the amended C4: with unit 0's transcript empty from a failed
run and unit 0's summary holding the sentinel, a re-run retries the
transcript unit but skips the summary unit. -/
theorem C4_failure_policy_witness :
    0 ∈ (process_audio_batches (fun _ => "") 1 (fun _ => false)
      { initState with transcripts := [(0, "")],
                       summaries := [(0, "[Error: Ollama not found]")],
                       lectureClean := some "w" }).2.2 ∧
    0 ∉ (process_summary_batches (fun _ => "S") (fun _ => false)
      { initState with transcripts := [(0, "")],
                       summaries := [(0, "[Error: Ollama not found]")],
                       lectureClean := some "w" }).2.2 := by
  have h := C4_failure_policy 1 (fun _ => false)
    { initState with transcripts := [(0, "")],
                     summaries := [(0, "[Error: Ollama not found]")],
                     lectureClean := some "w" }
    (fun _ => "") (fun _ => "S") rfl (fun _ => rfl)
  exact ⟨h.2.2.2.1 0 (by decide) (by decide), (h.2.2.2.2 0 (by decide)).2⟩

/-- C10 counterexample: after `stop()` has been called, a call to
`process_audio_batches` whose audio cannot be chunked (empty chunk list)
returns False and does not run the merge, and a call to
`process_summary_batches` with no cleaned transcript on disk returns False
and does not run the compile — contradicting the claim that every subsequent
stage call still runs the merge (resp. compile), sets progress to 1.0 and
returns True. -/
theorem C10_counterexample :
    (process_audio_batches (fun _ => "") 0 (fun _ => false)
      (stopProcessor initState)).1 = false ∧
    (process_audio_batches (fun _ => "") 0 (fun _ => false)
      (stopProcessor initState)).2.1.lectureClean = none ∧
    (process_summary_batches (fun _ => "") (fun _ => false)
      (stopProcessor initState)).1 = false ∧
    (process_summary_batches (fun _ => "") (fun _ => false)
      (stopProcessor initState)).2.1.finalNotes = none := by
  exact ⟨by decide, by decide, by decide, by decide⟩

/-- C10 amended: the stop flag is never cleared — `stop()` sets it and no
stage call changes it — and once it is set, every subsequent stage call whose
pre-loop validation passes (a nonempty chunk list for transcription; an
existing cleaned transcript with a nonempty segment list for summarization)
writes zero new unit files (the loop exits before its first unit), yet still
runs the merge (resp. compile) step, sets the stage's progress to 1.0, and
returns True.  Calls whose pre-loop validation fails return False without
merging or compiling. -/
theorem C10_stop_is_permanent (transcribe : Nat → String) (n : Nat)
    (summarize : String → String) (stop : Nat → Bool) (s : ProcState)
    (hsf : s.stopFlag = true) :
    (∀ s', (stopProcessor s').stopFlag = true) ∧
    (process_audio_batches transcribe n stop s).2.1.stopFlag = true ∧
    (process_summary_batches summarize stop s).2.1.stopFlag = true ∧
    (n ≠ 0 →
      (process_audio_batches transcribe n stop s).1 = true ∧
      (process_audio_batches transcribe n stop s).2.2 = [] ∧
      (process_audio_batches transcribe n stop s).2.1.transcripts = s.transcripts ∧
      (process_audio_batches transcribe n stop s).2.1.lectureClean =
        some (merge_text s.transcripts) ∧
      (process_audio_batches transcribe n stop s).2.1.transcription_progress = 1) ∧
    (∀ text, s.lectureClean = some text → (split_text_into_chunks text 500).length ≠ 0 →
      (process_summary_batches summarize stop s).1 = true ∧
      (process_summary_batches summarize stop s).2.2 = [] ∧
      (process_summary_batches summarize stop s).2.1.summaries = s.summaries ∧
      (process_summary_batches summarize stop s).2.1.finalNotes =
        some (compile_text s.summaries) ∧
      (process_summary_batches summarize stop s).2.1.summarization_progress = 1) := by
  refine ⟨fun s' => rfl,
    (process_audio_batches_frame transcribe n stop s).2.2.2.trans hsf,
    (process_summary_batches_frame summarize stop s).2.2.2.trans hsf, ?_, ?_⟩
  · intro hn
    have hstopped := process_audio_batches_stopped transcribe n stop s hsf hn
    have hm := process_audio_batches_merges transcribe n stop s hn
    refine ⟨process_audio_batches_ret transcribe n stop s hn, hstopped.1, hstopped.2, ?_, hm.2⟩
    rw [hm.1, hstopped.2]
  · intro text hlc hc
    have hstopped := process_summary_batches_stopped summarize stop s text hsf hlc hc
    have hcmp := process_summary_batches_compiles summarize stop s text hlc hc
    refine ⟨hcmp.1, hstopped.1, hstopped.2, ?_, hcmp.2.2⟩
    rw [hcmp.2.1, hstopped.2]

/-- Witness for the amended C10: with the stop flag set, a transcription call
over 3 chunks writes nothing but merges and returns True, and a
summarization call over a one-word transcript writes nothing but compiles
the header-only notes and returns True. -/
theorem C10_stop_is_permanent_witness :
    (process_audio_batches (fun _ => "T") 3 (fun _ => false)
      (stopProcessor { initState with lectureClean := some "w" })).1 = true ∧
    (process_audio_batches (fun _ => "T") 3 (fun _ => false)
      (stopProcessor { initState with lectureClean := some "w" })).2.2 = [] ∧
    (process_summary_batches (fun _ => "S") (fun _ => false)
      (stopProcessor { initState with lectureClean := some "w" })).1 = true ∧
    (process_summary_batches (fun _ => "S") (fun _ => false)
      (stopProcessor { initState with lectureClean := some "w" })).2.2 = [] ∧
    (process_summary_batches (fun _ => "S") (fun _ => false)
      (stopProcessor { initState with lectureClean := some "w" })).2.1.finalNotes =
      some (compile_text []) := by
  have h := C10_stop_is_permanent (fun _ => "T") 3 (fun _ => "S") (fun _ => false)
    (stopProcessor { initState with lectureClean := some "w" }) rfl
  have ha := h.2.2.2.1 (by decide)
  have hs := h.2.2.2.2 "w" rfl (by decide)
  exact ⟨ha.1, ha.2.1, hs.1, hs.2.1, hs.2.2.2.1.trans (by decide)⟩

/-- C7: the Transcript Merger and the Notes Compiler are idempotent — for a
fixed set of unit files, running the operation twice with no new units
produces byte-identical output both times, because merging writes only
`lecture_clean.txt` (never the transcript directory), and compiling writes
only the final notes (never the summary directory). -/
theorem C7_merge_compile_idempotent (s : ProcState) :
    (merge_transcripts (merge_transcripts s)).lectureClean =
      (merge_transcripts s).lectureClean ∧
    (merge_transcripts (merge_transcripts s)).lectureClean =
      some (merge_text s.transcripts) ∧
    (merge_transcripts s).transcripts = s.transcripts ∧
    (compile_final_notes (compile_final_notes s)).finalNotes =
      (compile_final_notes s).finalNotes ∧
    (compile_final_notes (compile_final_notes s)).finalNotes =
      some (compile_text s.summaries) ∧
    (compile_final_notes s).summaries = s.summaries :=
  ⟨rfl, rfl, rfl, rfl, rfl, rfl⟩

/-- Characters with equal code points are equal. -/
theorem charToNat_inj {a b : Char} (h : a.toNat = b.toNat) : a = b :=
  Char.eq_of_val_eq (UInt32.ext h)

/-- Single-digit numbers expand to their digit character. -/
theorem decDigitsAux_small {f n : Nat} (hf : 0 < f) (h : n < 10) :
    decDigitsAux f n = [Nat.digitChar n] := by
  obtain ⟨f', rfl⟩ : ∃ k, f = k + 1 := ⟨f - 1, by omega⟩
  simp [decDigitsAux, h]

/-- Multi-digit numbers expand by peeling the last digit. -/
theorem decDigitsAux_step {f n : Nat} (h : ¬ n < 10) :
    decDigitsAux (f + 1) n = decDigitsAux f (n / 10) ++ [Nat.digitChar (n % 10)] := by
  simp [decDigitsAux, h]

/-- The digit expansion does not depend on the fuel once it exceeds `n`. -/
theorem decDigitsAux_irrel : ∀ (f1 f2 n : Nat), n < f1 → n < f2 →
    decDigitsAux f1 n = decDigitsAux f2 n := by
  intro f1
  induction f1 with
  | zero => intro f2 n h1 _; omega
  | succ f1 ih =>
    intro f2 n h1 h2
    obtain ⟨f2', rfl⟩ : ∃ k, f2 = k + 1 := ⟨f2 - 1, by omega⟩
    by_cases h : n < 10
    · rw [decDigitsAux_small (by omega) h, decDigitsAux_small (by omega) h]
    · rw [decDigitsAux_step h, decDigitsAux_step h]
      congr 1
      exact ih f2' (n / 10) (by omega) (by omega)

/-- Decimal representation of a one-digit number. -/
theorem decRepr_eq1 {n : Nat} (h : n < 10) : decRepr n = [Nat.digitChar n] :=
  decDigitsAux_small (by omega) h

/-- Decimal representation of a two-digit number. -/
theorem decRepr_eq2 {n : Nat} (h1 : 10 ≤ n) (h2 : n < 100) :
    decRepr n = [Nat.digitChar (n / 10), Nat.digitChar (n % 10)] := by
  unfold decRepr
  rw [decDigitsAux_step (by omega), decDigitsAux_small (by omega) (by omega)]
  rfl

/-- Decimal representation of a three-digit number. -/
theorem decRepr_eq3 {n : Nat} (h1 : 100 ≤ n) (h2 : n < 1000) :
    decRepr n = [Nat.digitChar (n / 100), Nat.digitChar (n / 10 % 10),
      Nat.digitChar (n % 10)] := by
  unfold decRepr
  rw [decDigitsAux_step (by omega),
    decDigitsAux_irrel n (n / 10 + 1) (n / 10) (by omega) (by omega),
    decDigitsAux_step (by omega), decDigitsAux_small (by omega) (by omega)]
  have e : n / 10 / 10 = n / 100 := by omega
  rw [e]
  rfl

/-- For indices below 1000, the zero-padded field is exactly the three digit
characters. -/
theorem pad3_eq {n : Nat} (h : n < 1000) :
    pad3 n = [Nat.digitChar (n / 100), Nat.digitChar (n / 10 % 10),
      Nat.digitChar (n % 10)] := by
  unfold pad3
  by_cases h1 : n < 10
  · rw [decRepr_eq1 h1]
    have e1 : n / 100 = 0 := by omega
    have e2 : n / 10 % 10 = 0 := by omega
    have e3 : n % 10 = n := by omega
    rw [e1, e2, e3]
    rfl
  · by_cases h2 : n < 100
    · rw [decRepr_eq2 (by omega) h2]
      have e1 : n / 100 = 0 := by omega
      have e2 : n / 10 % 10 = n / 10 := by omega
      rw [e1, e2]
      rfl
    · rw [decRepr_eq3 (by omega) h]
      rfl

/-- Comparing two lists sharing a head compares the tails. -/
theorem lexLeB_cons_self (c : Char) (t t' : List Char) :
    lexLeB (c :: t) (c :: t') = lexLeB t t' := by
  show (if c.toNat < c.toNat then true
    else if c.toNat < c.toNat then false else lexLeB t t') = lexLeB t t'
  rw [if_neg (Nat.lt_irrefl c.toNat), if_neg (Nat.lt_irrefl c.toNat)]

/-- A strictly smaller head decides the comparison. -/
theorem lexLeB_cons_lt {a b : Char} (h : a.toNat < b.toNat) (t t' : List Char) :
    lexLeB (a :: t) (b :: t') = true := by
  show (if a.toNat < b.toNat then true
    else if b.toNat < a.toNat then false else lexLeB t t') = true
  rw [if_pos h]

/-- A shared prefix does not affect the comparison. -/
theorem lexLeB_append_same : ∀ (p a b : List Char), lexLeB (p ++ a) (p ++ b) = lexLeB a b
  | [], _, _ => rfl
  | c :: p, a, b => by
    rw [List.cons_append, List.cons_append, lexLeB_cons_self]
    exact lexLeB_append_same p a b

/-- Digit characters are ordered like their digits. -/
theorem digitChar_lt {a b : Nat} (ha : a < 10) (hb : b < 10) (h : a < b) :
    (Nat.digitChar a).toNat < (Nat.digitChar b).toNat := by
  have H : ∀ a, a < 10 → ∀ b, b < 10 → a < b →
      (Nat.digitChar a).toNat < (Nat.digitChar b).toNat := by decide
  exact H a ha b hb h

/-- For indices below 1000, the unit-file names with a shared prefix and
suffix are lexicographically ordered like their indices. -/
theorem pathNames_le {p t : List Char} {i j : Nat} (hi : i < 1000) (hj : j < 1000)
    (hij : i < j) :
    lexLeB (p ++ (pad3 i ++ t)) (p ++ (pad3 j ++ t)) = true := by
  rw [lexLeB_append_same, pad3_eq hi, pad3_eq hj]
  have hd : i / 100 < j / 100 ∨ (i / 100 = j / 100 ∧ (i / 10 % 10 < j / 10 % 10 ∨
      (i / 10 % 10 = j / 10 % 10 ∧ i % 10 < j % 10))) := by omega
  rcases hd with h | ⟨e1, h⟩
  · simp only [List.cons_append, List.nil_append]
    exact lexLeB_cons_lt (digitChar_lt (by omega) (by omega) h) _ _
  · rw [e1]
    rcases h with h | ⟨e2, h⟩
    · simp only [List.cons_append, List.nil_append]
      rw [lexLeB_cons_self]
      exact lexLeB_cons_lt (digitChar_lt (by omega) (by omega) h) _ _
    · rw [e2]
      simp only [List.cons_append, List.nil_append]
      rw [lexLeB_cons_self, lexLeB_cons_self]
      exact lexLeB_cons_lt (digitChar_lt (by omega) (by omega) h) _ _

/-- The string order is total. -/
theorem lexLeB_total : ∀ a b : List Char, lexLeB a b = true ∨ lexLeB b a = true
  | [], _ => Or.inl rfl
  | _ :: _, [] => Or.inr rfl
  | a :: as, b :: bs => by
    rcases Nat.lt_trichotomy a.toNat b.toNat with h | h | h
    · exact Or.inl (lexLeB_cons_lt h _ _)
    · have : a = b := charToNat_inj h
      subst this
      rw [lexLeB_cons_self, lexLeB_cons_self]
      exact lexLeB_total as bs
    · exact Or.inr (lexLeB_cons_lt h _ _)

/-- The string order is transitive. -/
theorem lexLeB_trans : ∀ a b c : List Char,
    lexLeB a b = true → lexLeB b c = true → lexLeB a c = true
  | [], _, _, _, _ => rfl
  | _ :: _, [], _, h1, _ => by cases h1
  | _ :: _, _ :: _, [], _, h2 => by cases h2
  | a :: as, b :: bs, c :: cs, h1, h2 => by
    rcases Nat.lt_trichotomy a.toNat b.toNat with hab | hab | hab
    · rcases Nat.lt_trichotomy b.toNat c.toNat with hbc | hbc | hbc
      · exact lexLeB_cons_lt (by omega) _ _
      · exact lexLeB_cons_lt (by omega) _ _
      · rw [show lexLeB (b :: bs) (c :: cs) =
            (if b.toNat < c.toNat then true
             else if c.toNat < b.toNat then false else lexLeB bs cs) from rfl,
          if_neg (by omega), if_pos hbc] at h2
        cases h2
    · have : a = b := charToNat_inj hab
      subst this
      rw [lexLeB_cons_self] at h1
      rcases Nat.lt_trichotomy a.toNat c.toNat with hac | hac | hac
      · exact lexLeB_cons_lt hac _ _
      · have : a = c := charToNat_inj hac
        subst this
        rw [lexLeB_cons_self] at h2 ⊢
        exact lexLeB_trans as bs cs h1 h2
      · rw [show lexLeB (a :: bs) (c :: cs) =
            (if a.toNat < c.toNat then true
             else if c.toNat < a.toNat then false else lexLeB bs cs) from rfl,
          if_neg (by omega), if_pos hac] at h2
        cases h2
    · rw [show lexLeB (a :: as) (b :: bs) =
          (if a.toNat < b.toNat then true
           else if b.toNat < a.toNat then false else lexLeB as bs) from rfl,
        if_neg (by omega), if_pos hab] at h1
      cases h1

/-- The string order is antisymmetric. -/
theorem lexLeB_antisymm : ∀ a b : List Char,
    lexLeB a b = true → lexLeB b a = true → a = b
  | [], [], _, _ => rfl
  | [], _ :: _, _, h2 => by cases h2
  | _ :: _, [], h1, _ => by cases h1
  | a :: as, b :: bs, h1, h2 => by
    rcases Nat.lt_trichotomy a.toNat b.toNat with hab | hab | hab
    · rw [show lexLeB (b :: bs) (a :: as) =
          (if b.toNat < a.toNat then true
           else if a.toNat < b.toNat then false else lexLeB bs as) from rfl,
        if_neg (by omega), if_pos hab] at h2
      cases h2
    · have : a = b := charToNat_inj hab
      subst this
      rw [lexLeB_cons_self] at h1 h2
      rw [lexLeB_antisymm as bs h1 h2]
    · rw [show lexLeB (a :: as) (b :: bs) =
          (if a.toNat < b.toNat then true
           else if b.toNat < a.toNat then false else lexLeB as bs) from rfl,
        if_neg (by omega), if_pos hab] at h1
      cases h1

instance : IsTotal String strLe :=
  ⟨fun a b => lexLeB_total a.data b.data⟩

instance : IsTrans String strLe :=
  ⟨fun a b c h1 h2 => lexLeB_trans a.data b.data c.data h1 h2⟩

instance : IsAntisymm String strLe :=
  ⟨fun a b h1 h2 => by
    have h := lexLeB_antisymm a.data b.data h1 h2
    cases a
    cases b
    exact congrArg String.mk h⟩

/-- For at most 1000 units, the index-ordered transcript paths are sorted in
the string order the Merger uses. -/
theorem sorted_tpath_range (n : Nat) (hn : n ≤ 1000) :
    List.Sorted strLe ((List.range n).map tpath) := by
  show List.Pairwise strLe ((List.range n).map tpath)
  rw [List.pairwise_map]
  refine List.Pairwise.imp_of_mem ?_ (List.sorted_lt_range n)
  intro a b ha hb hab
  rw [List.mem_range] at ha hb
  show lexLeB ("transcripts/batch_".data ++ (pad3 a ++ ".txt".data))
    ("transcripts/batch_".data ++ (pad3 b ++ ".txt".data)) = true
  exact pathNames_le (by omega) (by omega) hab

/-- For at most 1000 units, the index-ordered summary paths are sorted in the
string order the Compiler uses. -/
theorem sorted_spath_range (n : Nat) (hn : n ≤ 1000) :
    List.Sorted strLe ((List.range n).map spath) := by
  show List.Pairwise strLe ((List.range n).map spath)
  rw [List.pairwise_map]
  refine List.Pairwise.imp_of_mem ?_ (List.sorted_lt_range n)
  intro a b ha hb hab
  rw [List.mem_range] at ha hb
  show lexLeB ("summaries/summary_".data ++ (pad3 a ++ ".txt".data))
    ("summaries/summary_".data ++ (pad3 b ++ ".txt".data)) = true
  exact pathNames_le (by omega) (by omega) hab

/-- C8 counterexample: with 1001 units the stage writes `batch_999.txt` and
`batch_1000.txt`, and sorting those names lexicographically (as the Merger
does) puts index 1000 before index 999 — numeric order is not preserved. -/
theorem C8_counterexample :
    List.insertionSort strLe [tpath 999, tpath 1000] = [tpath 1000, tpath 999] ∧
    tpath 999 ≠ tpath 1000 := by
  exact ⟨by decide, by decide⟩

/-- C8 amended: for up to 1000 units (indices 0-999, whose zero-padded fields
are exactly three digits) sorting the unit paths lexicographically — from any
directory-listing order — yields the units in numeric index order, for both
the transcript and the summary names; beyond index 999 the padding width is
exceeded and this fails. -/
theorem C8_lex_sort_names (n : Nat) (hn : n ≤ 1000) :
    (∀ l : List String, l.Perm ((List.range n).map tpath) →
      List.insertionSort strLe l = (List.range n).map tpath) ∧
    (∀ l : List String, l.Perm ((List.range n).map spath) →
      List.insertionSort strLe l = (List.range n).map spath) := by
  constructor
  · intro l hperm
    exact List.eq_of_perm_of_sorted ((List.perm_insertionSort strLe l).trans hperm)
      (List.sorted_insertionSort strLe l) (sorted_tpath_range n hn)
  · intro l hperm
    exact List.eq_of_perm_of_sorted ((List.perm_insertionSort strLe l).trans hperm)
      (List.sorted_insertionSort strLe l) (sorted_spath_range n hn)

/-- Witness for the amended C8: a scrambled listing of three unit names sorts
back to index order. -/
theorem C8_lex_sort_names_witness :
    List.insertionSort strLe [tpath 2, tpath 0, tpath 1] =
      (List.range 3).map tpath := by
  exact (C8_lex_sort_names 3 (by omega)).1 [tpath 2, tpath 0, tpath 1] (by decide)

/-- dropWhile never lengthens a list. -/
theorem dropWhile_length_le {α : Type} (p : α → Bool) : ∀ (l : List α),
    (l.dropWhile p).length ≤ l.length
  | [] => Nat.le_refl _
  | a :: l => by
    by_cases h : p a
    · rw [List.dropWhile_cons_of_pos h]
      have := dropWhile_length_le p l
      simp only [List.length_cons]
      omega
    · rw [List.dropWhile_cons_of_neg h]

/-- Splitting the empty text yields no words. -/
theorem splitWords_nil : splitWords [] = [] := rfl

/-- A leading whitespace character is skipped by the splitter. -/
theorem splitWords_cons_space {c : Char} (h : pyIsSpace c = true) (cs : List Char) :
    splitWords (c :: cs) = splitWords cs := by
  simp [splitWords, splitWordsAux, h]

/-- With a nonempty accumulator the scanner finishes the current word at the
next whitespace run. -/
theorem splitWordsAux_acc : ∀ (cs acc : List Char), acc ≠ [] →
    splitWordsAux cs acc =
      (acc.reverse ++ cs.takeWhile (fun d => !pyIsSpace d)) ::
        splitWords (cs.dropWhile (fun d => !pyIsSpace d))
  | [], acc, h => by
    have he : acc.isEmpty = false := by
      cases acc with
      | nil => exact absurd rfl h
      | cons x xs => rfl
    simp [splitWordsAux, he, splitWords]
  | c :: cs, acc, h => by
    by_cases hc : pyIsSpace c
    · have he : acc.isEmpty = false := by
        cases acc with
        | nil => exact absurd rfl h
        | cons x xs => rfl
      have hP : ¬ (fun d => !pyIsSpace d) c = true := by simp [hc]
      rw [@List.takeWhile_cons_of_neg _ (fun d => !pyIsSpace d) c cs hP,
        @List.dropWhile_cons_of_neg _ (fun d => !pyIsSpace d) c cs hP]
      simp only [splitWordsAux, hc, if_true, he, Bool.false_eq_true, if_false]
      rw [splitWords_cons_space hc, List.append_nil]
      rfl
    · have hc' : pyIsSpace c = false := by
        cases hcc : pyIsSpace c with
        | false => rfl
        | true => exact absurd hcc hc
      have hP : (fun d => !pyIsSpace d) c = true := by simp [hc']
      rw [@List.takeWhile_cons_of_pos _ (fun d => !pyIsSpace d) c cs hP,
        @List.dropWhile_cons_of_pos _ (fun d => !pyIsSpace d) c cs hP]
      have step : splitWordsAux (c :: cs) acc = splitWordsAux cs (c :: acc) := by
        simp [splitWordsAux, hc']
      rw [step, splitWordsAux_acc cs (c :: acc) (by simp)]
      rw [List.reverse_cons, List.append_assoc]
      rfl

/-- A leading word character starts a word running to the next whitespace. -/
theorem splitWords_cons_word {c : Char} (h : pyIsSpace c = false) (cs : List Char) :
    splitWords (c :: cs) =
      (c :: cs.takeWhile (fun d => !pyIsSpace d)) ::
        splitWords (cs.dropWhile (fun d => !pyIsSpace d)) := by
  have step : splitWords (c :: cs) = splitWordsAux cs [c] := by
    simp [splitWords, splitWordsAux, h]
  rw [step, splitWordsAux_acc cs [c] (by simp)]
  rfl

/-- The words produced by the splitter are nonempty and whitespace-free. -/
theorem splitWords_wf : ∀ (l : List Char), ∀ w ∈ splitWords l,
    w ≠ [] ∧ ∀ c ∈ w, pyIsSpace c = false
  | [], w, hw => by rw [splitWords_nil] at hw; cases hw
  | c :: cs, w, hw => by
    rcases hc : pyIsSpace c with _ | _
    · rw [splitWords_cons_word hc] at hw
      rcases List.mem_cons.mp hw with rfl | hw'
      · refine ⟨by simp, ?_⟩
        intro d hd
        rcases List.mem_cons.mp hd with rfl | hd'
        · exact hc
        · have := List.mem_takeWhile_imp hd'
          simpa using this
      · exact splitWords_wf (cs.dropWhile fun d => !pyIsSpace d) w hw'
    · rw [splitWords_cons_space hc] at hw
      exact splitWords_wf cs w hw
  termination_by l => l.length
  decreasing_by
    · have := dropWhile_length_le (fun d => !pyIsSpace d) cs
      simp only [List.length_cons]
      omega
    · simp only [List.length_cons]
      omega

/-- A list all of whose elements satisfy the predicate is its own takeWhile. -/
theorem takeWhile_of_all {α : Type} (P : α → Bool) : ∀ (l : List α),
    (∀ c ∈ l, P c = true) → l.takeWhile P = l
  | [], _ => rfl
  | x :: l, h => by
    rw [List.takeWhile_cons_of_pos (h x (List.mem_cons_self x l)),
      takeWhile_of_all P l (fun c hc => h c (List.mem_cons_of_mem x hc))]

/-- A list all of whose elements satisfy the predicate has empty dropWhile. -/
theorem dropWhile_of_all {α : Type} (P : α → Bool) : ∀ (l : List α),
    (∀ c ∈ l, P c = true) → l.dropWhile P = []
  | [], _ => rfl
  | x :: l, h => by
    rw [List.dropWhile_cons_of_pos (h x (List.mem_cons_self x l)),
      dropWhile_of_all P l (fun c hc => h c (List.mem_cons_of_mem x hc))]

/-- takeWhile passes over a satisfying block. -/
theorem takeWhile_append_of_all {α : Type} (P : α → Bool) : ∀ (w l : List α),
    (∀ c ∈ w, P c = true) → (w ++ l).takeWhile P = w ++ l.takeWhile P
  | [], _, _ => rfl
  | x :: w, l, h => by
    rw [List.cons_append, List.takeWhile_cons_of_pos (h x (List.mem_cons_self x w)),
      takeWhile_append_of_all P w l (fun c hc => h c (List.mem_cons_of_mem x hc)),
      List.cons_append]

/-- dropWhile passes over a satisfying block. -/
theorem dropWhile_append_of_all {α : Type} (P : α → Bool) : ∀ (w l : List α),
    (∀ c ∈ w, P c = true) → (w ++ l).dropWhile P = l.dropWhile P
  | [], _, _ => rfl
  | x :: w, l, h => by
    rw [List.cons_append, List.dropWhile_cons_of_pos (h x (List.mem_cons_self x w)),
      dropWhile_append_of_all P w l (fun c hc => h c (List.mem_cons_of_mem x hc))]

/-- Joining onto a nonempty rest inserts one separator. -/
theorem joinSep_cons (sep x : List Char) : ∀ (ys : List (List Char)), ys ≠ [] →
    joinSep sep (x :: ys) = x ++ sep ++ joinSep sep ys
  | [], h => absurd rfl h
  | _ :: _, _ => rfl

/-- Joining a concatenation of nonempty groups inserts one separator between
the groups. -/
theorem joinSep_append (sep : List Char) : ∀ (l1 l2 : List (List Char)), l1 ≠ [] → l2 ≠ [] →
    joinSep sep (l1 ++ l2) = joinSep sep l1 ++ sep ++ joinSep sep l2
  | [], _, h, _ => absurd rfl h
  | [w], l2, _, h2 => by
    rw [List.singleton_append, joinSep_cons sep w l2 h2]
    rfl
  | w :: v :: l1, l2, _, h2 => by
    have ih := joinSep_append sep (v :: l1) l2 (by simp) h2
    rw [List.cons_append, joinSep_cons sep w ((v :: l1) ++ l2) (by simp), ih,
      joinSep_cons sep w (v :: l1) (by simp)]
    simp [List.append_assoc]

/-- Splitting the single-space join of nonempty whitespace-free words
recovers exactly those words (the word-level round trip). -/
theorem splitWords_joinSep : ∀ (ws : List (List Char)),
    (∀ w ∈ ws, w ≠ [] ∧ ∀ c ∈ w, pyIsSpace c = false) →
    splitWords (joinSep [' '] ws) = ws
  | [], _ => rfl
  | [w], h => by
    obtain ⟨hne, hcl⟩ := h w (List.mem_cons_self _ _)
    obtain ⟨c, w', rfl⟩ : ∃ c w', w = c :: w' := by
      cases w with
      | nil => exact absurd rfl hne
      | cons c w' => exact ⟨c, w', rfl⟩
    show splitWords (c :: w') = [c :: w']
    rw [splitWords_cons_word (hcl c (List.mem_cons_self _ _))]
    rw [takeWhile_of_all _ w' (fun d hd => by
        simp [hcl d (List.mem_cons_of_mem _ hd)]),
      dropWhile_of_all _ w' (fun d hd => by
        simp [hcl d (List.mem_cons_of_mem _ hd)])]
    rfl
  | w :: v :: ws, h => by
    obtain ⟨hne, hcl⟩ := h w (List.mem_cons_self _ _)
    obtain ⟨c, w', rfl⟩ : ∃ c w', w = c :: w' := by
      cases w with
      | nil => exact absurd rfl hne
      | cons c w' => exact ⟨c, w', rfl⟩
    have hrest : joinSep [' '] ((c :: w') :: v :: ws) =
        c :: (w' ++ ' ' :: joinSep [' '] (v :: ws)) := by
      rw [joinSep_cons _ _ _ (by simp)]
      simp
    rw [hrest]
    have hclw' : ∀ d ∈ w', (fun d => !pyIsSpace d) d = true := fun d hd => by
      simp [hcl d (List.mem_cons_of_mem _ hd)]
    rw [splitWords_cons_word (hcl c (List.mem_cons_self _ _)),
      takeWhile_append_of_all _ w' _ hclw',
      dropWhile_append_of_all _ w' _ hclw',
      List.takeWhile_cons_of_neg (by decide),
      List.dropWhile_cons_of_neg (by decide),
      splitWords_cons_space (by decide),
      splitWords_joinSep (v :: ws) (fun u hu => h u (List.mem_cons_of_mem _ hu)),
      List.append_nil]

/-- Zero words yield zero segments. -/
theorem numSegs_zero {S : Nat} (hS : 0 < S) : numSegs 0 S = 0 := by
  unfold numSegs
  exact Nat.div_eq_of_lt (by omega)

/-- With at least one word, the segment count peels one segment. -/
theorem numSegs_succ {W S : Nat} (hS : 0 < S) (hW : 0 < W) :
    numSegs W S = numSegs (W - S) S + 1 := by
  unfold numSegs
  by_cases h : W ≤ S
  · have e1 : W + S - 1 = (W - 1) + S := by omega
    have e2 : W - S = 0 := by omega
    have e3 : 0 + S - 1 = S - 1 := by omega
    rw [e1, Nat.add_div_right _ hS, e2, e3,
      Nat.div_eq_of_lt (show W - 1 < S by omega),
      Nat.div_eq_of_lt (show S - 1 < S by omega)]
  · have e1 : W + S - 1 = (W - 1) + S := by omega
    have e2 : W - S + S - 1 = W - 1 := by omega
    rw [e1, Nat.add_div_right _ hS, e2]

/-- No words yield no groups. -/
theorem wordChunks_nil {S : Nat} (hS : 0 < S) :
    wordChunks S ([] : List (List Char)) = [] := by
  unfold wordChunks
  rw [List.length_nil, numSegs_zero hS]
  rfl

/-- With at least one word, the groups are the first `S` words followed by
the groups of the rest. -/
theorem wordChunks_cons {S : Nat} (hS : 0 < S) {ws : List (List Char)} (h : ws ≠ []) :
    wordChunks S ws = ws.take S :: wordChunks S (ws.drop S) := by
  unfold wordChunks
  have hW : 0 < ws.length := List.length_pos.mpr h
  rw [numSegs_succ hS hW, List.range_succ_eq_map, List.map_cons, List.length_drop]
  congr 1
  · unfold wordChunk
    rw [Nat.zero_mul, List.drop_zero]
  · rw [List.map_map]
    apply List.map_congr_left
    intro k _
    show wordChunk S ws (k + 1) = wordChunk S (ws.drop S) k
    unfold wordChunk
    rw [List.drop_drop]
    congr 2
    ring

/-- The number of segments is the group count. -/
theorem wordChunks_length (S : Nat) (ws : List (List Char)) :
    (wordChunks S ws).length = numSegs ws.length S := by
  simp [wordChunks]

/-- Every group but the last holds exactly `S` words. -/
theorem wordChunk_length_of_lt {S : Nat} (hS : 0 < S) {ws : List (List Char)} {k : Nat}
    (h : k + 1 < numSegs ws.length S) : (wordChunk S ws k).length = S := by
  unfold wordChunk
  rw [List.length_take, List.length_drop]
  have hcov : (k + 1) * S < ws.length := by
    by_contra hcon
    push_neg at hcon
    have := ceil_count_least ws.length S (k + 1) hS hcon
    unfold numSegs at h
    omega
  have e : (k + 1) * S = k * S + S := by ring
  rw [Nat.min_eq_left (by omega)]

/-- Every group holds at most `S` words. -/
theorem wordChunk_length_le (S : Nat) (ws : List (List Char)) (k : Nat) :
    (wordChunk S ws k).length ≤ S := by
  unfold wordChunk
  rw [List.length_take]
  exact Nat.min_le_left _ _

/-- Joining the single-space joins of the groups equals joining the words:
the group structure is invisible after rejoining. -/
theorem joinSep_wordChunks (S : Nat) (hS : 0 < S) :
    ∀ ws : List (List Char),
      joinSep [' '] ((wordChunks S ws).map (joinSep [' '])) = joinSep [' '] ws
  | [] => by rw [wordChunks_nil hS]; rfl
  | w :: ws' => by
    rw [wordChunks_cons hS (by simp)]
    by_cases hdrop : (w :: ws').drop S = []
    · rw [hdrop, wordChunks_nil hS]
      have hd := congrArg List.length hdrop
      rw [List.length_drop, List.length_nil] at hd
      have hlen : (w :: ws').length ≤ S := by omega
      rw [List.take_of_length_le hlen]
      rfl
    · have htake : (w :: ws').take S ≠ [] := by
        obtain ⟨m, hm⟩ : ∃ m, S = m + 1 := ⟨S - 1, by omega⟩
        rw [hm, List.take_succ_cons]
        simp
      have hchunksne : wordChunks S ((w :: ws').drop S) ≠ [] := by
        rw [wordChunks_cons hS hdrop]
        simp
      have hmapne : (wordChunks S ((w :: ws').drop S)).map (joinSep [' ']) ≠ [] := by
        simpa using hchunksne
      rw [List.map_cons, joinSep_cons _ _ _ hmapne,
        joinSep_wordChunks S hS ((w :: ws').drop S)]
      conv_rhs => rw [← List.take_append_drop S (w :: ws')]
      rw [joinSep_append _ _ _ htake hdrop]
  termination_by ws => ws.length
  decreasing_by
    rw [List.length_drop]
    simp only [List.length_cons]
    omega

/-- C6: for every text `T` and segment size `S > 0`, the text chunker yields
exactly `ceil(word_count(T)/S)` segments (the least segment count covering
the word count); joining the segments with single spaces equals `T` with its
whitespace runs collapsed to single spaces (word-level round trip); every
segment except possibly the last contains exactly `S` words; and segmenting
the same text with the same parameter always yields the same segments. -/
theorem C6_split_text_into_chunks_correct (T : String) (S : Nat) (hS : 0 < S) :
    (split_text_into_chunks T S).length = numSegs (splitWords T.data).length S ∧
    ((splitWords T.data).length ≤ (split_text_into_chunks T S).length * S ∧
      ∀ m, (splitWords T.data).length ≤ m * S → (split_text_into_chunks T S).length ≤ m) ∧
    joinWithSpaces (split_text_into_chunks T S) = collapseWhitespace T ∧
    (∀ k, k + 1 < (split_text_into_chunks T S).length →
      (splitWords ((split_text_into_chunks T S).getD k "").data).length = S) ∧
    split_text_into_chunks T S = split_text_into_chunks T S := by
  have hlen : (split_text_into_chunks T S).length = numSegs (splitWords T.data).length S := by
    unfold split_text_into_chunks
    rw [List.length_map, wordChunks_length]
  refine ⟨hlen, ⟨?_, ?_⟩, ?_, ?_, rfl⟩
  · rw [hlen]
    exact ceil_count_covers (splitWords T.data).length S hS
  · intro m hm
    rw [hlen]
    exact ceil_count_least (splitWords T.data).length S m hS hm
  · unfold joinWithSpaces collapseWhitespace split_text_into_chunks
    rw [List.map_map]
    show String.mk (joinSep [' ']
        ((wordChunks S (splitWords T.data)).map (joinSep [' ']))) =
      String.mk (joinSep [' '] (splitWords T.data))
    exact congrArg String.mk (joinSep_wordChunks S hS (splitWords T.data))
  · intro k hk
    have hk' : k < (split_text_into_chunks T S).length := by omega
    have hget : (split_text_into_chunks T S).getD k "" =
        String.mk (joinSep [' '] (wordChunk S (splitWords T.data) k)) := by
      rw [List.getD_eq_getElem _ _ hk']
      unfold split_text_into_chunks wordChunks
      simp
    rw [hget]
    show (splitWords (joinSep [' '] (wordChunk S (splitWords T.data) k))).length = S
    have hclean : ∀ w ∈ wordChunk S (splitWords T.data) k,
        w ≠ [] ∧ ∀ c ∈ w, pyIsSpace c = false := by
      intro w hw
      have hmem : w ∈ splitWords T.data := by
        unfold wordChunk at hw
        exact List.drop_subset _ _ (List.take_subset _ _ hw)
      exact splitWords_wf T.data w hmem
    rw [splitWords_joinSep _ hclean]
    apply wordChunk_length_of_lt hS
    rw [hlen] at hk
    exact hk

/-- Witness for C6 at a concrete text: "  hello   world  foo " with S = 2
gives segments "hello world" and "foo" — count 2, round trip, first segment
of exactly 2 words. -/
theorem C6_split_text_into_chunks_correct_witness :
    (split_text_into_chunks (String.mk "  hello   world  foo ".data) 2).length = 2 ∧
    joinWithSpaces (split_text_into_chunks (String.mk "  hello   world  foo ".data) 2) =
      collapseWhitespace (String.mk "  hello   world  foo ".data) ∧
    (splitWords ((split_text_into_chunks (String.mk "  hello   world  foo ".data) 2).getD
      0 "").data).length = 2 := by
  have h := C6_split_text_into_chunks_correct (String.mk "  hello   world  foo ".data) 2
    (by decide)
  refine ⟨?_, h.2.2.1, h.2.2.2.1 0 ?_⟩
  · rw [h.1]
    decide
  · rw [h.1]
    decide
